import Mathlib

/-!
# oss-issue-finder: state manager (dedup and bounded match history)

A shallow embedding of `internal/state/manager.go`, the types of
`pkg/types/models.go`, `validateProfile` of `cmd/search.go`, the collection loop
of `internal/github/client.go` and `extractJSON` of `internal/ai/evaluator.go`,
with the theorems that settle the specification's claims about them.

Conventions of the embedding

* A Go runtime panic is the result `none`.
* Go `int` is `Int`; no arithmetic in the embedded code can overflow
  (only lengths are compared with the cap).
* A Go `map[string]bool` is `GoMap`: either the nil map or a finite list of
  entries with pairwise distinct keys maintained by `GoMap.set`.
* A candidate issue is a Go `map[string]any`; the dynamic values that
  `FetchRelevantIssues` stores in it are strings, ints and string slices (the
  truncated body is a string kept as its bytes), and a missing member reads as
  the nil interface value.
* A Go string that came out of `json.Unmarshal` is valid UTF-8 and is a `String`;
  where the code counts or slices bytes (`len(body)`, `body[:500]`) the bytes of
  its UTF-8 encoding are used. Offsets returned by `strings.Index` and
  `strings.LastIndex` are kept as character offsets, which cut the text at the
  same places.
* Slices are lists (a nil slice and an empty slice are both `[]`).
-/

namespace IssueFinder

/-! ## Data model (`pkg/types/models.go`) -/

/-- IssueMatch of `pkg/types/models.go`: a GitHub issue that matches the profile. -/
structure IssueMatch where
  Repo : String
  IssueNumber : Int
  Title : String
  URL : String
  MatchReason : String
  Effort : String
  Labels : List String
  CreatedAt : String
  FoundAt : String
  deriving DecidableEq, Repr

/-- Go `map[string]bool`. `nil` is the nil map (reads succeed, writes panic);
`mk entries` is an allocated map holding the listed key/value pairs. -/
inductive GoMap where
  | nil
  | mk (entries : List (String × Bool))
  deriving DecidableEq, Repr

/-- Go `m[k]` on a `map[string]bool`: the stored value, or the zero value `false`
when the key is absent or the map is nil. -/
def GoMap.get : GoMap → String → Bool
  | .nil, _ => false
  | .mk entries, k => (entries.lookup k).getD false

/-- Go `m[k] = v`: panics (`none`) on the nil map, otherwise replaces or adds the
entry for `k`. -/
def GoMap.set : GoMap → String → Bool → Option GoMap
  | .nil, _, _ => none
  | .mk entries, k, v => some (.mk ((k, v) :: entries.filter (fun e => e.1 != k)))

/-- Go `make(map[string]bool)`: an allocated map with no entries. -/
def GoMap.make : GoMap := .mk []

/-- State of `pkg/types/models.go`: the persisted aggregate. -/
structure State where
  LastRun : String
  ProcessedIssues : GoMap
  AllMatches : List IssueMatch
  deriving DecidableEq, Repr

/-- A dynamically typed Go value (`any`) as stored in a candidate issue map:
the nil interface, a string, an int, or a slice of strings. A Go string is a
sequence of bytes: `str` holds one that is valid UTF-8, as its text, and `raw`
holds one that need not be, as its bytes (the truncated body of an issue). -/
inductive GoAny where
  | nil
  | str (s : String)
  | int (n : Int)
  | strs (l : List String)
  | raw (bytes : List UInt8)
  deriving DecidableEq, Repr

/-- A candidate issue: Go `map[string]any`, as a list of members. -/
abbrev Issue := List (String × GoAny)

/-- Go `issue[k]` on a `map[string]any`: the member, or the nil interface when absent. -/
def Issue.member (issue : Issue) (k : String) : GoAny :=
  (issue.lookup k).getD .nil

/-! ## Formatting (`fmt.Sprintf("%s/%d", ...)`) -/

/-- Decimal rendering of an integer as `%d` prints it: an optional minus sign
followed by the decimal digits, most significant first. -/
def fmtInt (n : Int) : List Char :=
  if n < 0 then '-' :: Nat.toDigits 10 n.natAbs else Nat.toDigits 10 n.natAbs

/-- Join strings with single spaces, as `fmt` prints the elements of a slice. -/
def joinSp : List (List Char) → List Char
  | [] => []
  | [x] => x
  | x :: y :: rest => x ++ ' ' :: joinSp (y :: rest)

/-- The verb `%s` applied to a dynamic value. A string prints verbatim; an int is
a bad operand for the verb; a string slice prints its elements in brackets. A raw
string prints its bytes, shown here one character per byte; the program formats
only the members `repo` and `number`, which are never raw. -/
def fmtS : GoAny → List Char
  | .nil => "%!s(<nil>)".data
  | .str s => s.data
  | .int n => "%!s(int=".data ++ fmtInt n ++ [')']
  | .strs l => '[' :: joinSp (l.map String.data) ++ [']']
  | .raw b => b.map (fun x => Char.ofNat x.toNat)

/-- The verb `%d` applied to a dynamic value. An int prints in decimal; a string
is a bad operand for the verb. -/
def fmtD : GoAny → List Char
  | .nil => "%!d(<nil>)".data
  | .str s => "%!d(string=".data ++ s.data ++ [')']
  | .int n => fmtInt n
  | .strs l => '[' :: joinSp (l.map (fun s => "%!d(string=".data ++ s.data ++ [')'])) ++ [']']
  | .raw b => "%!d(string=".data ++ b.map (fun x => Char.ofNat x.toNat) ++ [')']

/-- The composite key computed at `manager.go:77`:
`fmt.Sprintf("%s/%d", issue["repo"], issue["number"])`. -/
def issueKey (issue : Issue) : String :=
  String.mk (fmtS (issue.member "repo") ++ '/' :: fmtD (issue.member "number"))

/-! ## The dedup and merge engine (`internal/state/manager.go`) -/

/-- The `for _, issue := range issues` loop of `FilterNewIssues`, carrying the
result slice `newIssues` and the state that the Go code mutates through its
pointer. A write to a nil `ProcessedIssues` map panics. -/
def filterLoop : List Issue → List Issue → State → Option (List Issue × State)
  | [], newIssues, state => some (newIssues, state)
  | issue :: rest, newIssues, state =>
    let key := issueKey issue
    if !state.ProcessedIssues.get key then
      match state.ProcessedIssues.set key true with
      | none => none
      | some m => filterLoop rest (newIssues ++ [issue]) { state with ProcessedIssues := m }
    else
      filterLoop rest newIssues state

/-- FilterNewIssues of `manager.go:73`: filters out already processed issues and
marks new ones. Returns the new issues together with the mutated state. -/
def FilterNewIssues (state : State) (issues : List Issue) : Option (List Issue × State) :=
  filterLoop issues [] state

/-- Go `s[:hi]` on a slice whose capacity is not known to exceed its length:
panics when `hi` is negative or beyond the length. -/
def sliceTo {α : Type} (s : List α) (hi : Int) : Option (List α) :=
  if hi < 0 ∨ (s.length : Int) < hi then none else some (s.take hi.toNat)

/-- AddMatches of `manager.go:89`: adds new matches to state and maintains the
history limit. Returns the mutated state. -/
def AddMatches (state : State) (newMatches : List IssueMatch) (maxMatches : Int) : Option State :=
  let all := newMatches ++ state.AllMatches
  if (all.length : Int) > maxMatches then
    match sliceTo all maxMatches with
    | none => none
    | some kept => some { state with AllMatches := kept }
  else
    some { state with AllMatches := all }

/-- The fresh state literal used by `Load` and `Clear`:
`types.State{ProcessedIssues: make(map[string]bool), AllMatches: []types.IssueMatch{}}`. -/
def freshState : State :=
  { LastRun := "", ProcessedIssues := GoMap.make, AllMatches := [] }

/-- A candidate issue with a string repository and an int number, the two members
the key is built from, followed by any further members. -/
def mkIssue (repo : String) (number : Int) (others : Issue) : Issue :=
  ("repo", .str repo) :: ("number", .int number) :: others

/-! ## Persistence (`Load`, `Save`) -/

/-- Manager of `manager.go:13`. -/
structure Manager where
  statePath : String
  deriving DecidableEq, Repr

/-- NewManager of `manager.go:17`. -/
def NewManager (statePath : String) : Manager :=
  { statePath := statePath }

/-- Outcome of `os.ReadFile`: an error for which `os.IsNotExist` holds, any other
error, or the bytes of the file. -/
inductive ReadResult (Bytes : Type) where
  | notExist
  | failed
  | ok (data : Bytes)

/-- Error values returned by `Save`. -/
inductive SaveError where
  | marshaling
  | saving
  deriving DecidableEq, Repr

/-- The library calls `Load` and `Save` make, as parameters of the embedding:
`os.ReadFile`, `os.WriteFile` (the new world and whether the write succeeded),
`json.Unmarshal` into a zero `State` (`none` is a parse error), `json.Marshal`
(`none` is an error) and `time.Now().Format(time.RFC3339)`. -/
structure Host (Bytes World : Type) where
  readFile : World → String → ReadResult Bytes
  writeFile : World → String → Bytes → World × Bool
  jsonUnmarshal : Bytes → Option State
  jsonMarshal : State → Option Bytes
  now : World → String

/-- Load of `manager.go:24`: reads the state from disk. The log lines written on
the two error paths are not part of the result. -/
def Manager.Load {Bytes World : Type} (m : Manager) (host : Host Bytes World) (w : World) : State :=
  match host.readFile w m.statePath with
  | .notExist => { LastRun := "", ProcessedIssues := GoMap.make, AllMatches := [] }
  | .failed => { LastRun := "", ProcessedIssues := GoMap.make, AllMatches := [] }
  | .ok data =>
    match host.jsonUnmarshal data with
    | none => { LastRun := "", ProcessedIssues := GoMap.make, AllMatches := [] }
    | some state => state

/-- Save of `manager.go:56`: stamps `LastRun`, serialises and writes the state.
Returns the world after the call and the error, if any. -/
def Manager.Save {Bytes World : Type} (m : Manager) (host : Host Bytes World) (w : World)
    (state : State) : World × Option SaveError :=
  let state := { state with LastRun := host.now w }
  match host.jsonMarshal state with
  | none => (w, some .marshaling)
  | some data =>
    match host.writeFile w m.statePath data with
    | (w1, false) => (w1, some .saving)
    | (w1, true) => (w1, none)

/-- An in-memory host used to instantiate the theorems about `Load` and `Save`:
file contents are kept up to parsing (`some s` is a document that decodes to `s`,
`none` is content that does not parse), the world is a list of files with the
most recent write first, every write succeeds and the clock is fixed. -/
def memHost : Host (Option State) (List (String × Option State)) where
  readFile := fun w path =>
    match w.lookup path with
    | none => .notExist
    | some d => .ok d
  writeFile := fun w path d => ((path, d) :: w, true)
  jsonUnmarshal := fun d => d
  jsonMarshal := fun s => some (some s)
  now := fun _ => "2024-11-05T10:00:00Z"

/-- A sample match, distinguished by its issue number. -/
def sampleMatch (n : Int) : IssueMatch :=
  { Repo := "x/y", IssueNumber := n, Title := "t", URL := "u", MatchReason := "r",
    Effort := "small", Labels := ["good first issue"], CreatedAt := "2024-11-01",
    FoundAt := "2024-11-05 10:00" }

/-! ## Decimal numerals (specification side) -/

/-- The value of a string of decimal digits, most significant digit first. -/
def decValue (cs : List Char) : Nat :=
  cs.foldl (fun acc c => 10 * acc + (c.toNat - 48)) 0

/-- The canonical digit string of a natural number: not empty, decimal digits
only, of the right value, and without padding: the single digit `0` for zero and
no leading zero otherwise. -/
def IsNatDecimal (n : Nat) (ds : List Char) : Prop :=
  ds ≠ [] ∧ (∀ c ∈ ds, c.isDigit = true) ∧ decValue ds = n ∧
    (n = 0 → ds = ['0']) ∧ (n ≠ 0 → ds.head? ≠ some '0')

/-- The canonical decimal rendering of an integer: a minus sign exactly when the
integer is negative, then the canonical digits of its absolute value. -/
def IsDecimal (n : Int) (cs : List Char) : Prop :=
  ∃ ds, IsNatDecimal n.natAbs ds ∧ cs = if n < 0 then '-' :: ds else ds

/-! ## FilterNewIssues (specification side) -/

/-- The result of `FilterNewIssues` in the words of the specification: the
candidates of `C`, in input order, whose composite key is not marked in the
processed set as it is at the start of the call and does not occur at an earlier
position of `C`. -/
def specNewIssues (processed : GoMap) (C : List Issue) : List Issue :=
  C.enum.filterMap (fun p =>
    if processed.get (issueKey p.2) = false ∧ issueKey p.2 ∉ (C.take p.1).map issueKey then
      some p.2
    else none)

/-- The same selection, walking the batch with the candidates already passed. -/
def keepFrom (processed : GoMap) : List Issue → List Issue → List Issue
  | _, [] => []
  | earlier, c :: rest =>
    if processed.get (issueKey c) = false ∧ issueKey c ∉ earlier.map issueKey then
      c :: keepFrom processed (earlier ++ [c]) rest
    else
      keepFrom processed (earlier ++ [c]) rest

/-- The candidate carries a string repository identifier `r` and an int issue
number `n`, as every candidate built by `FetchRelevantIssues` does. -/
def HasPair (issue : Issue) (r : String) (n : Int) : Prop :=
  issue.member "repo" = .str r ∧ issue.member "number" = .int n

/-- A stored entry of a Go map in the comma-ok form `v, ok := m[k]`: `none` when
the key is absent or the map is nil. -/
def GoMap.entry : GoMap → String → Option Bool
  | .nil, _ => none
  | .mk entries, k => entries.lookup k

/-- Two Go maps are the same map value: both nil or both allocated, with the same
entry under every key. Go maps carry no order of their entries. -/
def GoMap.Same (a b : GoMap) : Prop :=
  (a = .nil ↔ b = .nil) ∧ ∀ k, a.entry k = b.entry k

/-- A state whose processed set already marks `x/y/1`. -/
def seenOne : State :=
  { freshState with ProcessedIssues := .mk [("x/y/1", true)] }

/-- A batch with an issue seen before, a new issue reported twice, and a new issue. -/
def sampleBatch : List Issue :=
  [mkIssue "x/y" 1 [], mkIssue "x/y" 2 [("title", .str "first")],
   mkIssue "x/y" 2 [("title", .str "second")], mkIssue "x/y" 3 []]

/-- The batch of the specification scenario: issues 1 and 2 of `x/y`. -/
def scenarioBatch : List Issue :=
  [mkIssue "x/y" 1 [], mkIssue "x/y" 2 []]

/-- The state left by filtering `sampleBatch` from `seenOne`. -/
def seenThree : State :=
  { freshState with
    ProcessedIssues := .mk [("x/y/3", true), ("x/y/2", true), ("x/y/1", true)] }

/-! ## Clear, profile validation and the evaluator's stamp -/

/-- Clear of `manager.go:98`: builds the fresh state literal and persists it with
`Save`, returning what `Save` returns. -/
def Manager.Clear {Bytes World : Type} (m : Manager) (host : Host Bytes World) (w : World) :
    World × Option SaveError :=
  m.Save host w { LastRun := "", ProcessedIssues := GoMap.make, AllMatches := [] }

/-- The zero value of `State` (`var state types.State`): empty `LastRun`, nil map,
nil slice. `json.Unmarshal` leaves it as it is for the documents `null` and
`{}`, which name no member. -/
def zeroState : State :=
  { LastRun := "", ProcessedIssues := .nil, AllMatches := [] }

/-- UserProfile of `pkg/types/models.go`. -/
structure UserProfile where
  Name : String
  Skills : List String
  Interests : List String
  ExperienceYears : Int
  deriving DecidableEq, Repr

/-- The function validateProfile of `cmd/search.go:208`; `none` is the nil error,
`some msg` the error built by `fmt.Errorf`. -/
def validateProfile (profile : UserProfile) : Option String :=
  if profile.Skills.length = 0 then
    some ("no skills specified\n  Use --skills flag or set profile.skills in config file\n"
      ++ "  Example: contribution-finder search --skills \"Go,Python\"")
  else if profile.ExperienceYears < 0 ∨ profile.ExperienceYears > 50 then
    some "experience years must be between 0 and 50"
  else
    none

/-- The last loop of `EvaluateIssues` (`evaluator.go:103`): every parsed match gets
`FoundAt = now`, where `now` is `time.Now().Format("2006-01-02 15:04")`. -/
def stampFoundAt (now : String) (parsed : List IssueMatch) : List IssueMatch :=
  parsed.map (fun m => { m with FoundAt := now })

/-- A match with its found-at value blanked: two matches differ at most in their
found-at values exactly when they agree after blanking. -/
def eraseFoundAt (m : IssueMatch) : IssueMatch :=
  { m with FoundAt := "" }

/-! ## The issue source (`internal/github/client.go`) -/

/-- Label of `pkg/types/models.go`. -/
structure Label where
  Name : String
  deriving DecidableEq, Repr

/-- GitHubIssue of `pkg/types/models.go`. `CreatedAt` is a `time.Time` in the
source; it is kept as its rendering under the layout `2006-01-02`, the only use
the program makes of it. -/
structure GitHubIssue where
  Number : Int
  Title : String
  URL : String
  Labels : List Label
  CreatedAt : String
  Body : String
  RepoURL : String
  deriving DecidableEq, Repr

/-- Go `strings.Split(s, "/")`: the pieces of `s` between slashes; a string with
no slash gives the one piece `s`. -/
def splitSlash : List Char → List (List Char)
  | [] => [[]]
  | c :: cs =>
    if c = '/' then [] :: splitSlash cs
    else
      match splitSlash cs with
      | [] => [[c]]
      | piece :: pieces => (c :: piece) :: pieces

/-- The method extractRepoName of `client.go:212`. -/
def extractRepoName (repoURL : String) : String :=
  let parts := splitSlash repoURL.data
  if parts.length ≥ 2 then
    String.mk (parts.getD (parts.length - 2) [] ++ '/' :: parts.getD (parts.length - 1) [])
  else
    "unknown"

/-- The bytes of a string: its UTF-8 encoding. -/
def utf8Bytes (s : String) : List UInt8 :=
  s.data.flatMap String.utf8EncodeChar

/-- The truncation marker of `client.go:61`. -/
def truncatedMarker : String := "... [truncated]"

/-- The body truncation of `client.go:59`: `len(body)` counts bytes and
`body[:500]` keeps the first 500 bytes. -/
def truncateBody (body : String) : List UInt8 :=
  if (utf8Bytes body).length > 500 then
    (utf8Bytes body).take 500 ++ utf8Bytes truncatedMarker
  else
    utf8Bytes body

/-- The candidate map built at `client.go:52` to `client.go:72` for an issue
whose URL has not been seen. -/
def buildCandidate (issue : GitHubIssue) : Issue :=
  [("repo", .str (extractRepoName issue.RepoURL)),
   ("number", .int issue.Number),
   ("title", .str issue.Title),
   ("url", .str issue.URL),
   ("labels", .strs (issue.Labels.map (fun label => label.Name))),
   ("body", .raw (truncateBody issue.Body)),
   ("created_at", .str issue.CreatedAt)]

/-- The inner loop of `FetchRelevantIssues` over the issues of one query, carrying
the result slice `allIssues` and the map `seenIssueURLs`. -/
def collectIssues : List GitHubIssue → List Issue → GoMap → Option (List Issue × GoMap)
  | [], allIssues, seen => some (allIssues, seen)
  | issue :: rest, allIssues, seen =>
    if seen.get issue.URL then
      collectIssues rest allIssues seen
    else
      match seen.set issue.URL true with
      | none => none
      | some seen1 => collectIssues rest (allIssues ++ [buildCandidate issue]) seen1

/-- The outer loop of `FetchRelevantIssues` over the queries; each element of
`results` is what `gc.searchIssues(query)` returned for the query at that position. -/
def collectQueries : List (List GitHubIssue) → List Issue → GoMap → Option (List Issue × GoMap)
  | [], allIssues, seen => some (allIssues, seen)
  | issues :: rest, allIssues, seen =>
    match collectIssues issues allIssues seen with
    | none => none
    | some r => collectQueries rest r.1 r.2

/-- FetchRelevantIssues of `client.go:30`, as a function of the search results of
its queries, in query order. The pause between queries has no effect on the result. -/
def FetchRelevantIssues (results : List (List GitHubIssue)) : Option (List Issue) :=
  (collectQueries results [] GoMap.make).map (fun r => r.1)

/-- The issues that are the first of their URL, in order: those whose URL does not
occur at an earlier position of the list. -/
def firstByURL (issues : List GitHubIssue) : List GitHubIssue :=
  issues.enum.filterMap (fun p =>
    if p.2.URL ∉ (issues.take p.1).map (fun i => i.URL) then some p.2 else none)

/-- The same selection, walking the list with the URLs already passed. -/
def keepUnseen : List String → List GitHubIssue → List GitHubIssue
  | _, [] => []
  | earlier, issue :: rest =>
    if issue.URL ∉ earlier then issue :: keepUnseen (earlier ++ [issue.URL]) rest
    else keepUnseen (earlier ++ [issue.URL]) rest

/-- A sample search hit. -/
def sampleHit (n : Int) (url : String) : GitHubIssue :=
  { Number := n, Title := "t", URL := url, Labels := [{ Name := "help wanted" }],
    CreatedAt := "2024-11-01", Body := "b",
    RepoURL := "https://api.github.com/repos/owner/name" }

/-- A body of 251 two-byte characters: 251 characters, 502 bytes. -/
def accentedBody : String := String.mk (List.replicate 251 'é')

/-! ## The evaluator's response clean-up (`internal/ai/evaluator.go`) -/

/-- Go `unicode.IsSpace`: the white space characters of Latin-1 and the other
characters with the Unicode White_Space property. -/
def isSpace (c : Char) : Bool :=
  let n := c.toNat
  n == 0x09 || n == 0x0A || n == 0x0B || n == 0x0C || n == 0x0D || n == 0x20 ||
  n == 0x85 || n == 0xA0 || n == 0x1680 || (0x2000 ≤ n && n ≤ 0x200A) ||
  n == 0x2028 || n == 0x2029 || n == 0x202F || n == 0x205F || n == 0x3000

/-- Go `strings.TrimSpace`: the text without its leading and trailing white space. -/
def trimSpace (s : List Char) : List Char :=
  (s.rdropWhile isSpace).dropWhile isSpace

/-- Go `strings.Index(s, pat)`: the offset of the first occurrence of `pat` in
`s`; `none` stands for the result `-1`. -/
def index (pat : List Char) : List Char → Option Nat
  | [] => if pat.isPrefixOf [] then some 0 else none
  | c :: cs => if pat.isPrefixOf (c :: cs) then some 0 else (index pat cs).map (fun i => i + 1)

/-- Go `strings.LastIndex(s, pat)`: the offset of the last occurrence of `pat` in
`s`; `none` stands for the result `-1`. -/
def lastIndex (pat : List Char) : List Char → Option Nat
  | [] => if pat.isPrefixOf [] then some 0 else none
  | c :: cs =>
    match lastIndex pat cs with
    | some i => some (i + 1)
    | none => if pat.isPrefixOf (c :: cs) then some 0 else none

/-- Go `s[lo:hi]` on a string: panics unless `lo ≤ hi ≤ len(s)`. -/
def sliceFromTo (s : List Char) (lo hi : Nat) : Option (List Char) :=
  if lo ≤ hi ∧ hi ≤ s.length then some ((s.take hi).drop lo) else none

/-- The opening and closing mark of a markdown code block. -/
def fence : List Char := "```".data

/-- The function extractJSON of `evaluator.go:112`, on the characters of the text:
removes markdown code block wrapping from JSON responses. -/
def extractJSON (text : List Char) : Option (List Char) :=
  let text := trimSpace text
  if fence.isPrefixOf text then
    match index ['\n'] text with
    | none => some text
    | some startIdx =>
      match lastIndex fence text with
      | none => some text
      | some endIdx =>
        if endIdx ≤ startIdx then some text
        else (sliceFromTo text (startIdx + 1) endIdx).map trimSpace
  else
    some text

/-! ## AddMatches -/

theorem sliceTo_of_le {α : Type} (s : List α) (hi : Int) (h0 : 0 ≤ hi) (h1 : hi ≤ s.length) :
    sliceTo s hi = some (s.take hi.toNat) := by
  unfold sliceTo
  rw [if_neg]
  omega

theorem sliceTo_of_neg {α : Type} (s : List α) (hi : Int) (h : hi < 0) : sliceTo s hi = none := by
  unfold sliceTo
  rw [if_pos (Or.inl h)]

/-- What `AddMatches` computes when the cap is not negative. -/
theorem AddMatches_of_nonneg (state : State) (newMatches : List IssueMatch) (m : Int)
    (hm : 0 ≤ m) :
    AddMatches state newMatches m
      = some { state with AllMatches := (newMatches ++ state.AllMatches).take m.toNat } := by
  unfold AddMatches
  simp only
  split
  · rename_i h
    rw [sliceTo_of_le _ _ hm (le_of_lt h)]
  · rename_i h
    have h2 : (newMatches ++ state.AllMatches).length ≤ m.toNat := by omega
    rw [List.take_of_length_le h2]

/-- C3 (cap enforcement): for every state, list of new matches and cap `m ≥ 0`,
`AddMatches` returns, the stored history has at most `m` entries, and it is the
first `min m (len new + len old)` entries of `new ++ old`, so the entries dropped
are the ones at the end (the oldest). -/
theorem AddMatches_enforces_cap (state : State) (newMatches : List IssueMatch) (m : Int) (hm : 0 ≤ m) :
    ∃ s1, AddMatches state newMatches m = some s1 ∧
      (s1.AllMatches.length : Int) ≤ m ∧
      s1.AllMatches = (newMatches ++ state.AllMatches).take
        (min m.toNat (newMatches.length + state.AllMatches.length)) ∧
      ∃ dropped, newMatches ++ state.AllMatches = s1.AllMatches ++ dropped := by
  refine ⟨_, AddMatches_of_nonneg state newMatches m hm, ?_, ?_, ?_⟩
  · simp only [List.length_take, List.length_append]
    omega
  · simp only
    rw [← List.length_append, List.take_eq_take]
    simp
  · exact ⟨(newMatches ++ state.AllMatches).drop m.toNat, (List.take_append_drop _ _).symm⟩

/-- Witness for C3: cap 2, history `[M0]`, new matches `[M1, M2]` give `[M1, M2]`. -/
theorem AddMatches_enforces_cap_witness :
    AddMatches { freshState with AllMatches := [sampleMatch 0] } [sampleMatch 1, sampleMatch 2] 2
        = some { freshState with AllMatches := [sampleMatch 1, sampleMatch 2] } ∧
      ∃ s1, AddMatches { freshState with AllMatches := [sampleMatch 0] }
          [sampleMatch 1, sampleMatch 2] 2 = some s1 ∧
        (s1.AllMatches.length : Int) ≤ 2 ∧
        s1.AllMatches = ([sampleMatch 1, sampleMatch 2]
            ++ ({ freshState with AllMatches := [sampleMatch 0] } : State).AllMatches).take
          (min (2 : Int).toNat ([sampleMatch 1, sampleMatch 2].length
            + ({ freshState with AllMatches := [sampleMatch 0] } : State).AllMatches.length)) ∧
        ∃ dropped, [sampleMatch 1, sampleMatch 2]
            ++ ({ freshState with AllMatches := [sampleMatch 0] } : State).AllMatches
          = s1.AllMatches ++ dropped :=
  ⟨by decide, AddMatches_enforces_cap _ _ 2 (by decide)⟩

/-- C4 (recency first): when the new matches and the stored ones fit under the
cap together, `AddMatches` stores exactly `new ++ old`, whatever the matches hold. -/
theorem AddMatches_recency_first (state : State) (newMatches : List IssueMatch) (cap : Int)
    (hfit : (newMatches.length : Int) + state.AllMatches.length ≤ cap) :
    AddMatches state newMatches cap
      = some { state with AllMatches := newMatches ++ state.AllMatches } := by
  unfold AddMatches
  simp only
  rw [if_neg]
  simp only [List.length_append, Nat.cast_add]
  omega

/-- Witness for C4: history `[A, B]`, new matches `[C, D]`, cap 4 give `[C, D, A, B]`. -/
theorem AddMatches_recency_first_witness :
    ((([sampleMatch 3, sampleMatch 4] : List IssueMatch).length : Int)
        + ({ freshState with AllMatches := [sampleMatch 1, sampleMatch 2] } : State).AllMatches.length
        ≤ 4) ∧
      AddMatches { freshState with AllMatches := [sampleMatch 1, sampleMatch 2] }
          [sampleMatch 3, sampleMatch 4] 4
        = some { freshState with
            AllMatches := [sampleMatch 3, sampleMatch 4, sampleMatch 1, sampleMatch 2] } :=
  ⟨by decide, AddMatches_recency_first _ _ 4 (by decide)⟩

/-- With a cap of zero `AddMatches` returns and leaves the history empty. -/
theorem AddMatches_zero_cap (state : State) (newMatches : List IssueMatch) :
    AddMatches state newMatches 0 = some { state with AllMatches := [] } := by
  rw [AddMatches_of_nonneg state newMatches 0 (le_refl 0)]
  simp

/-- With a negative cap `AddMatches` panics on every state and every list of
matches: the length is never below zero, so the guard holds and `[:maxMatches]`
is evaluated with a negative bound. -/
theorem AddMatches_negative_cap_panics (state : State) (newMatches : List IssueMatch) (m : Int)
    (hm : m < 0) : AddMatches state newMatches m = none := by
  unfold AddMatches
  simp only
  rw [if_pos, sliceTo_of_neg _ _ hm]
  omega

/-- C5 (failing input): on the fresh state, with no new matches and cap `-1`,
`AddMatches` does not return; the claim promises an empty history instead. -/
theorem AddMatches_panics_on_minus_one : AddMatches freshState [] (-1) = none := by
  decide

/-! ## Decimal rendering -/

theorem digitChar_isDigit (k : Fin 10) : (Nat.digitChar k.val).isDigit = true := by
  revert k; decide

theorem digitChar_value (k : Fin 10) : (Nat.digitChar k.val).toNat - 48 = k.val := by
  revert k; decide

theorem digitChar_ne_zero (k : Fin 10) (h : k.val ≠ 0) : Nat.digitChar k.val ≠ '0' := by
  revert k; decide

theorem decValue_append_singleton (ds : List Char) (c : Char) :
    decValue (ds ++ [c]) = 10 * decValue ds + (c.toNat - 48) := by
  simp [decValue, List.foldl_append]

/-- The digit loop of `Nat.toDigits` with enough fuel prepends the canonical
digits of `n` to the accumulator. -/
theorem toDigitsCore_spec (fuel : Nat) :
    ∀ (n : Nat) (acc : List Char), n < fuel →
      ∃ ds, Nat.toDigitsCore 10 fuel n acc = ds ++ acc ∧ IsNatDecimal n ds := by
  induction fuel with
  | zero => intro n acc h; omega
  | succ fuel ih =>
    intro n acc h
    have hmod : n % 10 < 10 := Nat.mod_lt _ (by decide)
    by_cases hq : n / 10 = 0
    · have hn : n % 10 = n := by omega
      refine ⟨[Nat.digitChar (n % 10)], ?_, ?_, ?_, ?_, ?_, ?_⟩
      · simp [Nat.toDigitsCore, hq]
      · simp
      · intro c hc
        simp only [List.mem_singleton] at hc
        subst hc
        exact digitChar_isDigit ⟨n % 10, hmod⟩
      · have := digitChar_value ⟨n % 10, hmod⟩
        simp only [decValue, List.foldl_cons, List.foldl_nil]
        simp only at this
        omega
      · intro h0
        subst h0
        rfl
      · intro hne
        have := digitChar_ne_zero ⟨n % 10, hmod⟩ (by simp only; omega)
        simpa using this
    · obtain ⟨ds, heq, hne, hdig, hval, _, hlead⟩ :=
        ih (n / 10) (Nat.digitChar (n % 10) :: acc) (by omega)
      refine ⟨ds ++ [Nat.digitChar (n % 10)], ?_, ?_, ?_, ?_, ?_, ?_⟩
      · simp [Nat.toDigitsCore, hq, heq]
      · simp
      · intro c hc
        rcases List.mem_append.1 hc with h1 | h1
        · exact hdig c h1
        · simp only [List.mem_singleton] at h1
          subst h1
          exact digitChar_isDigit ⟨n % 10, hmod⟩
      · have := digitChar_value ⟨n % 10, hmod⟩
        rw [decValue_append_singleton, hval]
        simp only at this
        omega
      · intro h0
        omega
      · intro _
        cases ds with
        | nil => exact absurd rfl hne
        | cons d ds => simpa using hlead hq

theorem toDigits_isNatDecimal (n : Nat) : IsNatDecimal n (Nat.toDigits 10 n) := by
  obtain ⟨ds, heq, h⟩ := toDigitsCore_spec (n + 1) n [] (Nat.lt_succ_self n)
  have : Nat.toDigits 10 n = ds := by simpa [Nat.toDigits] using heq
  rw [this]; exact h

theorem fmtInt_isDecimal (n : Int) : IsDecimal n (fmtInt n) :=
  ⟨Nat.toDigits 10 n.natAbs, toDigits_isNatDecimal _, by unfold fmtInt; rfl⟩

/-- A canonical decimal rendering holds no slash. -/
theorem IsDecimal.no_slash {n : Int} {cs : List Char} (h : IsDecimal n cs) : '/' ∉ cs := by
  obtain ⟨ds, ⟨_, hdig, _, _, _⟩, rfl⟩ := h
  have hds : '/' ∉ ds := fun hmem => by
    have := hdig _ hmem
    revert this; decide
  split
  · intro hmem
    rcases List.mem_cons.1 hmem with h1 | h1
    · revert h1; decide
    · exact hds h1
  · exact hds

/-- A string is the canonical decimal rendering of at most one integer. -/
theorem IsDecimal.unique {n1 n2 : Int} {cs : List Char} (h1 : IsDecimal n1 cs)
    (h2 : IsDecimal n2 cs) : n1 = n2 := by
  obtain ⟨ds1, ⟨hne1, hdig1, hval1, _, _⟩, e1⟩ := h1
  obtain ⟨ds2, ⟨hne2, hdig2, hval2, _, _⟩, e2⟩ := h2
  have hminus : ∀ ds : List Char, ds ≠ [] → (∀ c ∈ ds, c.isDigit = true) →
      ∀ ds0 : List Char, ds ≠ '-' :: ds0 := by
    intro ds hne hdig ds0 he
    have := hdig '-' (by rw [he]; exact List.mem_cons_self _ _)
    revert this; decide
  by_cases s1 : n1 < 0 <;> by_cases s2 : n2 < 0
  · rw [if_pos s1] at e1
    rw [if_pos s2] at e2
    have : ds1 = ds2 := by
      have := e1.symm.trans e2
      simpa using this
    subst this
    omega
  · rw [if_pos s1] at e1
    rw [if_neg s2] at e2
    exact absurd (e2.symm.trans e1) (hminus ds2 hne2 hdig2 ds1)
  · rw [if_neg s1] at e1
    rw [if_pos s2] at e2
    exact absurd (e1.symm.trans e2) (hminus ds1 hne1 hdig1 ds2)
  · rw [if_neg s1] at e1
    rw [if_neg s2] at e2
    have : ds1 = ds2 := e1.symm.trans e2
    subst this
    omega

/-- Splitting at the last slash is unique: when neither tail holds a slash, equal
joined strings have equal heads and equal tails. -/
theorem split_last_slash (a1 a2 b1 b2 : List Char) (h1 : '/' ∉ b1) (h2 : '/' ∉ b2)
    (h : a1 ++ '/' :: b1 = a2 ++ '/' :: b2) : a1 = a2 ∧ b1 = b2 := by
  induction a1 generalizing a2 with
  | nil =>
    cases a2 with
    | nil => simpa using h
    | cons c a2 =>
      simp only [List.nil_append, List.cons_append, List.cons.injEq] at h
      exact absurd (by rw [h.2]; simp) h1
  | cons c a1 ih =>
    cases a2 with
    | nil =>
      simp only [List.nil_append, List.cons_append, List.cons.injEq] at h
      exact absurd (by rw [← h.2]; simp) h2
    | cons d a2 =>
      simp only [List.cons_append, List.cons.injEq] at h
      obtain ⟨e1, e2⟩ := ih a2 h.2
      exact ⟨by rw [h.1, e1], e2⟩

/-! ## FilterNewIssues -/

theorem lookup_filter_ne (entries : List (String × Bool)) (k k1 : String) (h : k1 ≠ k) :
    (entries.filter (fun e => e.1 != k)).lookup k1 = entries.lookup k1 := by
  induction entries with
  | nil => rfl
  | cons e entries ih =>
    obtain ⟨a, b⟩ := e
    by_cases hak : a = k
    · subst hak
      have hk : (k1 == a) = false := by simpa using h
      simp [List.filter, List.lookup, hk, ih]
    · have hne : (a != k) = true := by simpa using hak
      simp only [List.filter, hne, List.lookup]
      split <;> simp_all

theorem GoMap.get_set (m m1 : GoMap) (k : String) (v : Bool) (h : m.set k v = some m1)
    (k1 : String) : m1.get k1 = if k1 = k then v else m.get k1 := by
  cases m with
  | nil => simp [GoMap.set] at h
  | mk entries =>
    simp only [GoMap.set, Option.some.injEq] at h
    subst h
    by_cases hk : k1 = k
    · subst hk
      simp [GoMap.get, List.lookup]
    · have hb : (k1 == k) = false := by simpa using hk
      simp only [GoMap.get, List.lookup, hb, if_neg hk]
      rw [lookup_filter_ne _ _ _ hk]

theorem GoMap.set_ne_nil (m m1 : GoMap) (k : String) (v : Bool) (h : m.set k v = some m1) :
    m1 ≠ .nil := by
  cases m with
  | nil => simp [GoMap.set] at h
  | mk entries =>
    simp only [GoMap.set, Option.some.injEq] at h
    subst h
    simp

theorem GoMap.set_isSome (m : GoMap) (k : String) (v : Bool) (h : m ≠ .nil) :
    ∃ m1, m.set k v = some m1 := by
  cases m with
  | nil => exact absurd rfl h
  | mk entries => exact ⟨_, rfl⟩

/-- The loop invariant of `FilterNewIssues`. With `processed` the processed set at
the start of the call and `earlier` the candidates already passed, the current
map marks exactly the keys of `processed` and of `earlier`. From such a state
the loop returns, appends the specified selection of the remaining candidates,
marks their keys and touches nothing else. -/
theorem filterLoop_spec (processed : GoMap) :
    ∀ (rest earlier newIssues : List Issue) (st : State),
      st.ProcessedIssues ≠ .nil →
      (∀ k, st.ProcessedIssues.get k
        = (processed.get k || decide (k ∈ earlier.map issueKey))) →
      ∃ st1, filterLoop rest newIssues st
          = some (newIssues ++ keepFrom processed earlier rest, st1) ∧
        st1.ProcessedIssues ≠ .nil ∧
        (∀ k, st1.ProcessedIssues.get k
          = (processed.get k || decide (k ∈ (earlier ++ rest).map issueKey))) ∧
        st1.LastRun = st.LastRun ∧ st1.AllMatches = st.AllMatches := by
  intro rest
  induction rest with
  | nil =>
    intro earlier newIssues st hnil hinv
    exact ⟨st, by simp [filterLoop, keepFrom], hnil, by simpa using hinv, rfl, rfl⟩
  | cons c rest ih =>
    intro earlier newIssues st hnil hinv
    by_cases hget : st.ProcessedIssues.get (issueKey c) = true
    · -- already marked: the candidate is skipped
      have hskip : ¬ (processed.get (issueKey c) = false
          ∧ issueKey c ∉ earlier.map issueKey) := by
        have := hinv (issueKey c)
        rw [hget] at this
        intro hcon
        simp [hcon.1, hcon.2] at this
      obtain ⟨st1, hrun, h1, h2, h3, h4⟩ := ih (earlier ++ [c]) newIssues st hnil (by
        intro k
        rw [hinv k]
        by_cases hk : k = issueKey c
        · subst hk
          have := hinv (issueKey c)
          rw [hget] at this
          rw [← this]
          simp
        · simp [hk])
      refine ⟨st1, ?_, h1, ?_, h3, h4⟩
      · simp only [filterLoop, hget, keepFrom, if_neg hskip]
        simpa using hrun
      · simpa using h2
    · -- not marked: the candidate is appended and its key marked
      have hfalse : st.ProcessedIssues.get (issueKey c) = false := by simpa using hget
      have hkeep : processed.get (issueKey c) = false
          ∧ issueKey c ∉ earlier.map issueKey := by
        have := hinv (issueKey c)
        rw [hfalse] at this
        have h0 := this.symm
        simp only [Bool.or_eq_false_iff, decide_eq_false_iff_not] at h0
        exact h0
      obtain ⟨m1, hset⟩ := GoMap.set_isSome st.ProcessedIssues (issueKey c) true hnil
      obtain ⟨st1, hrun, h1, h2, h3, h4⟩ := ih (earlier ++ [c]) (newIssues ++ [c])
        { st with ProcessedIssues := m1 } (GoMap.set_ne_nil _ _ _ _ hset) (by
          intro k
          simp only
          rw [GoMap.get_set _ _ _ _ hset k, hinv k]
          by_cases hk : k = issueKey c
          · simp [hk]
          · simp [hk])
      refine ⟨st1, ?_, h1, ?_, h3, h4⟩
      · simp only [filterLoop, hfalse, keepFrom, if_pos hkeep, hset]
        simpa using hrun
      · simpa using h2

theorem keepFrom_eq_enumFrom (processed : GoMap) (C : List Issue) :
    ∀ (rest earlier : List Issue), C = earlier ++ rest →
      keepFrom processed earlier rest
        = (rest.enumFrom earlier.length).filterMap (fun p =>
            if processed.get (issueKey p.2) = false
                ∧ issueKey p.2 ∉ (C.take p.1).map issueKey then
              some p.2
            else none) := by
  intro rest
  induction rest with
  | nil => intro earlier _; simp [keepFrom]
  | cons c rest ih =>
    intro earlier hC
    have htake : C.take earlier.length = earlier := by
      rw [hC]; simp
    have hnext := ih (earlier ++ [c]) (by rw [hC]; simp)
    simp only [List.length_append, List.length_singleton] at hnext
    simp only [keepFrom, List.enumFrom_cons, List.filterMap_cons, htake]
    by_cases hkeep : processed.get (issueKey c) = false ∧ issueKey c ∉ earlier.map issueKey
    · rw [if_pos hkeep, if_pos hkeep, hnext]
    · rw [if_neg hkeep, if_neg hkeep, hnext]

/-- The walk with the candidates already passed computes the specified selection. -/
theorem keepFrom_eq_spec (processed : GoMap) (C : List Issue) :
    keepFrom processed [] C = specNewIssues processed C := by
  have := keepFrom_eq_enumFrom processed C C [] rfl
  simpa [specNewIssues, List.enum] using this

theorem keepFrom_mem (processed : GoMap) :
    ∀ (rest earlier : List Issue) (c : Issue), c ∈ keepFrom processed earlier rest →
      c ∈ rest ∧ processed.get (issueKey c) = false ∧ issueKey c ∉ earlier.map issueKey := by
  intro rest
  induction rest with
  | nil => intro earlier c h; simp [keepFrom] at h
  | cons d rest ih =>
    intro earlier c h
    have htail : c ∈ keepFrom processed (earlier ++ [d]) rest →
        c ∈ d :: rest ∧ processed.get (issueKey c) = false
          ∧ issueKey c ∉ earlier.map issueKey := by
      intro h1
      obtain ⟨a, b, e⟩ := ih (earlier ++ [d]) c h1
      refine ⟨List.mem_cons_of_mem _ a, b, ?_⟩
      intro hmem
      exact e (by simp only [List.map_append, List.mem_append]; exact Or.inl hmem)
    simp only [keepFrom] at h
    split at h
    · rename_i hkeep
      rcases List.mem_cons.1 h with h1 | h1
      · subst h1
        exact ⟨List.mem_cons_self _ _, hkeep.1, hkeep.2⟩
      · exact htail h1
    · exact htail h

theorem keepFrom_sublist (processed : GoMap) :
    ∀ (rest earlier : List Issue), (keepFrom processed earlier rest).Sublist rest := by
  intro rest
  induction rest with
  | nil => intro earlier; simp [keepFrom]
  | cons d rest ih =>
    intro earlier
    simp only [keepFrom]
    split
    · exact (ih _).cons₂ _
    · exact (ih _).cons _

theorem keepFrom_nodup (processed : GoMap) :
    ∀ (rest earlier : List Issue), ((keepFrom processed earlier rest).map issueKey).Nodup := by
  intro rest
  induction rest with
  | nil => intro earlier; simp [keepFrom]
  | cons d rest ih =>
    intro earlier
    simp only [keepFrom]
    split
    · rw [List.map_cons, List.nodup_cons]
      refine ⟨?_, ih _⟩
      intro hmem
      obtain ⟨c, hc, hkey⟩ := List.mem_map.1 hmem
      have := (keepFrom_mem processed rest (earlier ++ [d]) c hc).2.2
      apply this
      rw [hkey]
      simp
    · exact ih _

/-- On a nil processed map the loop returns only for an empty batch. -/
theorem filterLoop_nil_map (rest newIssues : List Issue) (st : State)
    (hnil : st.ProcessedIssues = .nil) (r : List Issue × State)
    (h : filterLoop rest newIssues st = some r) : rest = [] ∧ r = (newIssues, st) := by
  cases rest with
  | nil => simpa [filterLoop, eq_comm] using h
  | cons c rest => simp [filterLoop, hnil, GoMap.get, GoMap.set] at h

/-- When every candidate of the batch is already marked, the loop returns its
accumulator and leaves the state as it is. -/
theorem filterLoop_all_marked :
    ∀ (rest newIssues : List Issue) (st : State),
      (∀ c ∈ rest, st.ProcessedIssues.get (issueKey c) = true) →
      filterLoop rest newIssues st = some (newIssues, st) := by
  intro rest
  induction rest with
  | nil => intro newIssues st _; rfl
  | cons c rest ih =>
    intro newIssues st h
    have hc := h c (List.mem_cons_self _ _)
    simp only [filterLoop, hc]
    exact ih newIssues st (fun d hd => h d (List.mem_cons_of_mem _ hd))

/-- On a state with an allocated processed map `FilterNewIssues` returns the
specified selection and a state that marks the old keys and the keys of the batch. -/
theorem FilterNewIssues_allocated (S : State) (C : List Issue)
    (hinit : S.ProcessedIssues ≠ .nil) :
    ∃ S1, FilterNewIssues S C = some (specNewIssues S.ProcessedIssues C, S1) ∧
      S1.ProcessedIssues ≠ .nil ∧
      (∀ k, S1.ProcessedIssues.get k
        = (S.ProcessedIssues.get k || decide (k ∈ C.map issueKey))) ∧
      S1.LastRun = S.LastRun ∧ S1.AllMatches = S.AllMatches := by
  obtain ⟨S1, hrun, h1, h2, h3, h4⟩ :=
    filterLoop_spec S.ProcessedIssues C [] [] S hinit (by intro k; simp)
  refine ⟨S1, ?_, h1, ?_, h3, h4⟩
  · rw [← keepFrom_eq_spec]
    simpa [FilterNewIssues] using hrun
  · simpa using h2

theorem keepFrom_mem_of_first (processed : GoMap) (c : Issue) (post : List Issue)
    (hnew : processed.get (issueKey c) = false) :
    ∀ (pre earlier : List Issue), issueKey c ∉ (earlier ++ pre).map issueKey →
      c ∈ keepFrom processed earlier (pre ++ c :: post) := by
  intro pre
  induction pre with
  | nil =>
    intro earlier h
    have h1 : issueKey c ∉ earlier.map issueKey := by simpa using h
    simp [keepFrom, hnew, h1]
  | cons d pre ih =>
    intro earlier h
    have hrec := ih (earlier ++ [d]) (by simpa using h)
    simp only [List.cons_append, keepFrom]
    split
    · exact List.mem_cons_of_mem _ hrec
    · exact hrec

/-- The key of a candidate with a string repository and an int number. -/
theorem issueKey_of_pair (issue : Issue) (r : String) (n : Int) (h : HasPair issue r n) :
    issueKey issue = String.mk (r.data ++ '/' :: fmtInt n) := by
  unfold issueKey
  rw [h.1, h.2]
  rfl

/-- Candidates with string repositories and int numbers have equal keys exactly
when they have equal repositories and equal numbers. -/
theorem issueKey_eq_iff (i1 i2 : Issue) (r1 r2 : String) (n1 n2 : Int) (h1 : HasPair i1 r1 n1)
    (h2 : HasPair i2 r2 n2) : issueKey i1 = issueKey i2 ↔ r1 = r2 ∧ n1 = n2 := by
  rw [issueKey_of_pair i1 r1 n1 h1, issueKey_of_pair i2 r2 n2 h2]
  constructor
  · intro h
    have hdata : r1.data ++ '/' :: fmtInt n1 = r2.data ++ '/' :: fmtInt n2 :=
      congrArg String.data h
    obtain ⟨e1, e2⟩ := split_last_slash _ _ _ _ (fmtInt_isDecimal n1).no_slash
      (fmtInt_isDecimal n2).no_slash hdata
    refine ⟨String.ext e1, ?_⟩
    have d1 := fmtInt_isDecimal n1
    rw [e2] at d1
    exact d1.unique (fmtInt_isDecimal n2)
  · rintro ⟨rfl, rfl⟩
    rfl

theorem hasPair_mkIssue (r : String) (n : Int) (others : Issue) :
    HasPair (mkIssue r n others) r n := by
  constructor <;> simp [mkIssue, Issue.member, List.lookup]

/-! ## Claims about FilterNewIssues -/

/-- C1: on a state with an initialised processed map, `FilterNewIssues` returns, and
its result is exactly the specified selection: the candidates of `C`, in input
order, whose key is not marked in the processed set at the start of the call and
has not occurred at an earlier position of `C`. In particular the result is a
sublist of `C`, no returned candidate had its key marked before the call, and no
two returned candidates share a key. A key is in the processed set when the map
reads `true` for it, which is how the code tests membership. -/
theorem FilterNewIssues_returns_new (S : State) (C : List Issue)
    (hinit : S.ProcessedIssues ≠ .nil) :
    ∃ R S1, FilterNewIssues S C = some (R, S1) ∧
      R = specNewIssues S.ProcessedIssues C ∧
      R.Sublist C ∧
      (∀ c ∈ R, S.ProcessedIssues.get (issueKey c) = false) ∧
      (R.map issueKey).Nodup := by
  obtain ⟨S1, hrun, _⟩ := FilterNewIssues_allocated S C hinit
  refine ⟨_, S1, hrun, rfl, ?_, ?_, ?_⟩
  · rw [← keepFrom_eq_spec]; exact keepFrom_sublist _ _ _
  · intro c hc
    rw [← keepFrom_eq_spec] at hc
    exact (keepFrom_mem _ _ _ c hc).2.1
  · rw [← keepFrom_eq_spec]; exact keepFrom_nodup _ _ _

/-- Witness for C1: with `x/y/1` already processed, the batch
`[x/y#1, x/y#2 (first), x/y#2 (second), x/y#3]` yields `[x/y#2 (first), x/y#3]`. -/
theorem FilterNewIssues_returns_new_witness :
    seenOne.ProcessedIssues ≠ .nil ∧
      specNewIssues seenOne.ProcessedIssues sampleBatch
        = [mkIssue "x/y" 2 [("title", .str "first")], mkIssue "x/y" 3 []] ∧
      ∃ R S1, FilterNewIssues seenOne sampleBatch = some (R, S1) ∧
        R = specNewIssues seenOne.ProcessedIssues sampleBatch ∧
        R.Sublist sampleBatch ∧
        (∀ c ∈ R, seenOne.ProcessedIssues.get (issueKey c) = false) ∧
        (R.map issueKey).Nodup :=
  ⟨by decide, by decide, FilterNewIssues_returns_new seenOne sampleBatch (by decide)⟩

/-- C2 (idempotent re-filtering): whenever a call `FilterNewIssues(S, C)` has
returned, a second call on the state it left, with the same `C`, returns the empty
list and leaves that state as it is. The first call returns for every state whose
processed map is allocated (`FilterNewIssues_allocated`). -/
theorem FilterNewIssues_idempotent (S : State) (C R : List Issue) (S1 : State)
    (hrun : FilterNewIssues S C = some (R, S1)) :
    FilterNewIssues S1 C = some ([], S1) := by
  by_cases hnil : S.ProcessedIssues = .nil
  · obtain ⟨hC, hr⟩ := filterLoop_nil_map C [] S hnil _ hrun
    subst hC
    rfl
  · obtain ⟨S2, hrun2, _, hmarks, _, _⟩ := FilterNewIssues_allocated S C hnil
    rw [hrun] at hrun2
    simp only [Option.some.injEq, Prod.mk.injEq] at hrun2
    obtain ⟨_, rfl⟩ := hrun2
    apply filterLoop_all_marked
    intro c hc
    rw [hmarks]
    simp only [Bool.or_eq_true, decide_eq_true_eq]
    exact Or.inr (List.mem_map_of_mem _ hc)

/-- Witness for C2, the scenario of the specification: from the empty state the
candidates `x/y#1` and `x/y#2` are both returned and both marked, and a second
call with the same two candidates returns the empty list. -/
theorem FilterNewIssues_idempotent_witness :
    FilterNewIssues freshState scenarioBatch
        = some (scenarioBatch,
            { freshState with ProcessedIssues := .mk [("x/y/2", true), ("x/y/1", true)] }) ∧
      FilterNewIssues
          { freshState with ProcessedIssues := .mk [("x/y/2", true), ("x/y/1", true)] }
          scenarioBatch
        = some ([], { freshState with
            ProcessedIssues := .mk [("x/y/2", true), ("x/y/1", true)] }) :=
  ⟨by decide, FilterNewIssues_idempotent freshState scenarioBatch scenarioBatch _ (by decide)⟩

/-- C6 (the processed set only grows): whenever `FilterNewIssues(S, C)` has
returned, a key is marked afterwards exactly when it was marked before or is the
key of a candidate of `C`; so every key marked before stays marked and every
candidate of `C`, returned or skipped, has its key marked. -/
theorem FilterNewIssues_processed_grows (S : State) (C R : List Issue) (S1 : State)
    (hrun : FilterNewIssues S C = some (R, S1)) :
    (∀ k, S1.ProcessedIssues.get k = true
      ↔ S.ProcessedIssues.get k = true ∨ k ∈ C.map issueKey) ∧
    (∀ k, S.ProcessedIssues.get k = true → S1.ProcessedIssues.get k = true) ∧
    (∀ c ∈ C, S1.ProcessedIssues.get (issueKey c) = true) := by
  have hmain : ∀ k, S1.ProcessedIssues.get k = true
      ↔ S.ProcessedIssues.get k = true ∨ k ∈ C.map issueKey := by
    by_cases hnil : S.ProcessedIssues = .nil
    · obtain ⟨hC, hr⟩ := filterLoop_nil_map C [] S hnil _ hrun
      subst hC
      simp only [Prod.mk.injEq] at hr
      obtain ⟨_, rfl⟩ := hr
      simp
    · obtain ⟨S2, hrun2, _, hmarks, _, _⟩ := FilterNewIssues_allocated S C hnil
      rw [hrun] at hrun2
      simp only [Option.some.injEq, Prod.mk.injEq] at hrun2
      obtain ⟨_, rfl⟩ := hrun2
      intro k
      rw [hmarks]
      simp only [Bool.or_eq_true, decide_eq_true_eq]
  refine ⟨hmain, fun k hk => (hmain k).2 (Or.inl hk), fun c hc => ?_⟩
  exact (hmain _).2 (Or.inr (List.mem_map_of_mem _ hc))

/-- Witness for C6: with `x/y/1` marked, filtering the sample batch leaves
`x/y/1`, `x/y/2` and `x/y/3` marked. -/
theorem FilterNewIssues_processed_grows_witness :
    FilterNewIssues seenOne sampleBatch
        = some ([mkIssue "x/y" 2 [("title", .str "first")], mkIssue "x/y" 3 []], seenThree) ∧
      ((∀ k, seenThree.ProcessedIssues.get k = true
          ↔ seenOne.ProcessedIssues.get k = true ∨ k ∈ sampleBatch.map issueKey) ∧
        (∀ k, seenOne.ProcessedIssues.get k = true → seenThree.ProcessedIssues.get k = true) ∧
        (∀ c ∈ sampleBatch, seenThree.ProcessedIssues.get (issueKey c) = true)) :=
  ⟨by decide, FilterNewIssues_processed_grows seenOne sampleBatch
    [mkIssue "x/y" 2 [("title", .str "first")], mkIssue "x/y" 3 []] seenThree (by decide)⟩

/-! ## Claims about the composite key -/

/-- C7 (key derivation): for a candidate with string repository `r` and int number
`n`, the composite key is `r`, then a slash, then the canonical decimal rendering
of `n` (a minus sign for a negative number, the digits of the absolute value, no
leading zero); the repository is copied verbatim. -/
theorem issueKey_derivation (issue : Issue) (r : String) (n : Int) (h : HasPair issue r n) :
    ∃ d, issueKey issue = r ++ "/" ++ String.mk d ∧ IsDecimal n d := by
  refine ⟨fmtInt n, ?_, fmtInt_isDecimal n⟩
  rw [issueKey_of_pair issue r n h]
  apply String.ext
  simp [String.data_append]

/-- Witness for C7: the key of repository `foo/bar` and number 42 is `foo/bar/42`. -/
theorem issueKey_derivation_witness :
    issueKey (mkIssue "foo/bar" 42 [("title", .str "Fix the parser")]) = "foo/bar/42" ∧
      ∃ d, issueKey (mkIssue "foo/bar" 42 [("title", .str "Fix the parser")])
          = "foo/bar" ++ "/" ++ String.mk d ∧ IsDecimal 42 d :=
  ⟨by decide, issueKey_derivation _ "foo/bar" 42 (hasPair_mkIssue _ _ _)⟩

/-- C8 (the key identifies the pair): two candidates with string repositories
(which may hold slashes) and int numbers have equal composite keys exactly when
their repositories are equal and their numbers are equal. Hence, when every key
marked in the processed set is the key of a pair of a list `P`, a candidate of the
batch whose pair is not in `P` and differs from the pair of every candidate before
it in the batch is among the candidates `FilterNewIssues` returns. -/
theorem issueKey_identifies_pair (i1 i2 : Issue) (r1 r2 : String) (n1 n2 : Int)
    (h1 : HasPair i1 r1 n1) (h2 : HasPair i2 r2 n2) :
    (issueKey i1 = issueKey i2 ↔ r1 = r2 ∧ n1 = n2) ∧
    ∀ (S S1 : State) (C R pre post : List Issue) (P : List (String × Int)),
      FilterNewIssues S C = some (R, S1) →
      (∀ k, S.ProcessedIssues.get k = true → ∃ p ∈ P, k = issueKey (mkIssue p.1 p.2 [])) →
      C = pre ++ i1 :: post →
      (r1, n1) ∉ P →
      (∀ e ∈ pre, ∃ r n, HasPair e r n ∧ (r, n) ≠ (r1, n1)) →
      i1 ∈ R := by
  refine ⟨issueKey_eq_iff i1 i2 r1 r2 n1 n2 h1 h2, ?_⟩
  intro S S1 C R pre post P hrun hP hC hnew hpre
  have hinit : S.ProcessedIssues ≠ .nil := by
    intro hnil
    have := (filterLoop_nil_map C [] S hnil _ hrun).1
    rw [hC] at this
    simp at this
  obtain ⟨S2, hrun2, _⟩ := FilterNewIssues_allocated S C hinit
  rw [hrun] at hrun2
  simp only [Option.some.injEq, Prod.mk.injEq] at hrun2
  rw [hrun2.1, ← keepFrom_eq_spec, hC]
  apply keepFrom_mem_of_first
  · -- the key of the candidate is not marked at the start
    by_contra hmarked
    have hget : S.ProcessedIssues.get (issueKey i1) = true := by simpa using hmarked
    obtain ⟨p, hp, hkey⟩ := hP _ hget
    have := (issueKey_eq_iff i1 _ r1 p.1 n1 p.2 h1 (hasPair_mkIssue p.1 p.2 [])).1 hkey
    apply hnew
    have hpe : (r1, n1) = p := Prod.ext this.1 this.2
    rw [hpe]; exact hp
  · -- no earlier candidate of the batch has the key
    intro hmem
    simp only [List.nil_append] at hmem
    obtain ⟨e, he, hkey⟩ := List.mem_map.1 hmem
    obtain ⟨r, n, hrn, hne⟩ := hpre e he
    have := (issueKey_eq_iff e i1 r r1 n n1 hrn h1).1 hkey
    exact hne (Prod.ext this.1 this.2)

/-- Witness for C8: the keys of `x/y#2` and of number 2 in repository `x/y/` are
equal exactly when the repositories are, and with `x/y#1` processed the candidate
`x/y#2` is returned from the sample batch. -/
theorem issueKey_identifies_pair_witness :
    (issueKey (mkIssue "x/y" 2 [("title", .str "first")]) = issueKey (mkIssue "x/y/" 2 [])
        ↔ "x/y" = "x/y/" ∧ (2 : Int) = 2) ∧
      mkIssue "x/y" 2 [("title", .str "first")]
        ∈ [mkIssue "x/y" 2 [("title", .str "first")], mkIssue "x/y" 3 []] :=
  ⟨(issueKey_identifies_pair _ _ "x/y" "x/y/" 2 2 (hasPair_mkIssue _ _ _)
      (hasPair_mkIssue _ _ _)).1,
    (issueKey_identifies_pair (mkIssue "x/y" 2 [("title", .str "first")]) (mkIssue "x/y/" 2 [])
      "x/y" "x/y/" 2 2 (hasPair_mkIssue _ _ _) (hasPair_mkIssue _ _ _)).2
      seenOne seenThree sampleBatch _ [mkIssue "x/y" 1 []]
      [mkIssue "x/y" 2 [("title", .str "second")], mkIssue "x/y" 3 []] [("x/y", 1)]
      (by decide)
      (by
        intro k hk
        refine ⟨("x/y", 1), by simp, ?_⟩
        by_cases hkk : k = "x/y/1"
        · rw [hkk]; decide
        · have hb : (k == "x/y/1") = false := by simpa using hkk
          simp [seenOne, GoMap.get, List.lookup, hb] at hk)
      (by decide) (by decide)
      (by
        intro e he
        simp only [List.mem_singleton] at he
        subst he
        exact ⟨"x/y", 1, hasPair_mkIssue _ _ _, by decide⟩)⟩

/-! ## Claims about Load and Save -/

/-- C9 (`Load` never fails the caller): when the state file is missing, cannot be
read, or holds content that `json.Unmarshal` rejects, `Load` returns the fresh
empty state: an allocated processed map with no entries, no matches and an empty
`LastRun`. `Load` is a total function of the file system and returns a state on
every path, so no error reaches the caller. -/
theorem Load_never_fails {Bytes World : Type} (m : Manager) (host : Host Bytes World) (w : World)
    (h : host.readFile w m.statePath = .notExist ∨ host.readFile w m.statePath = .failed
      ∨ ∃ data, host.readFile w m.statePath = .ok data ∧ host.jsonUnmarshal data = none) :
    m.Load host w = { LastRun := "", ProcessedIssues := .mk [], AllMatches := [] } := by
  unfold Manager.Load
  rcases h with h | h | ⟨data, h, hparse⟩
  · rw [h]; rfl
  · rw [h]; rfl
  · rw [h]; simp only [hparse]; rfl

/-- Witness for C9: a state file whose content does not parse loads as the fresh
empty state. -/
theorem Load_never_fails_witness :
    (NewManager "state.json").Load memHost [("state.json", none)]
      = { LastRun := "", ProcessedIssues := .mk [], AllMatches := [] } :=
  Load_never_fails (NewManager "state.json") memHost [("state.json", none)]
    (Or.inr (Or.inr ⟨none, rfl, rfl⟩))

/-- C10 (Save/Load round trip): on a platform where a file reads back as the bytes
last written to it and `json.Unmarshal` inverts `json.Marshal` (up to the identity
of Go maps, which carry no order), when `Save(S)` returns no error a following
`Load` of the same path returns a state with the processed map of `S`, the matches
of `S` (every field, same order), and as `LastRun` the time stamped by `Save`. -/
theorem Save_Load_round_trip {Bytes World : Type} (m : Manager) (host : Host Bytes World)
    (w w1 : World) (S : State)
    (hfs : ∀ (w w1 : World) (path : String) (data : Bytes),
      host.writeFile w path data = (w1, true) → host.readFile w1 path = .ok data)
    (hjson : ∀ (s : State) (data : Bytes), host.jsonMarshal s = some data →
      ∃ s1, host.jsonUnmarshal data = some s1 ∧ s1.LastRun = s.LastRun ∧
        s1.AllMatches = s.AllMatches ∧ GoMap.Same s1.ProcessedIssues s.ProcessedIssues)
    (hsave : m.Save host w S = (w1, none)) :
    GoMap.Same (m.Load host w1).ProcessedIssues S.ProcessedIssues ∧
      (m.Load host w1).AllMatches = S.AllMatches ∧
      (m.Load host w1).LastRun = host.now w := by
  unfold Manager.Save at hsave
  simp only at hsave
  cases hm : host.jsonMarshal { S with LastRun := host.now w } with
  | none => simp [hm] at hsave
  | some data =>
    rw [hm] at hsave
    simp only at hsave
    cases hw : host.writeFile w m.statePath data with
    | mk w2 ok =>
      rw [hw] at hsave
      cases ok with
      | false => simp at hsave
      | true =>
        simp only [Prod.mk.injEq, and_true] at hsave
        subst hsave
        obtain ⟨s1, hparse, hlast, hmatches, hmap⟩ := hjson _ data hm
        have hread := hfs w w2 m.statePath data hw
        have hload : m.Load host w2 = s1 := by
          unfold Manager.Load
          rw [hread]
          simp only [hparse]
        rw [hload]
        exact ⟨hmap, hmatches, hlast⟩

/-- Witness for C10: on the in-memory host, saving a state with one processed key
and one match and loading it again gives the same key, the same match and the
stamped time. -/
theorem Save_Load_round_trip_witness :
    GoMap.Same
        ((NewManager "state.json").Load memHost
          [("state.json", some { seenOne with
              LastRun := "2024-11-05T10:00:00Z", AllMatches := [sampleMatch 7] })]).ProcessedIssues
        ({ seenOne with LastRun := "old", AllMatches := [sampleMatch 7] } : State).ProcessedIssues ∧
      ((NewManager "state.json").Load memHost
          [("state.json", some { seenOne with
              LastRun := "2024-11-05T10:00:00Z", AllMatches := [sampleMatch 7] })]).AllMatches
        = ({ seenOne with LastRun := "old", AllMatches := [sampleMatch 7] } : State).AllMatches ∧
      ((NewManager "state.json").Load memHost
          [("state.json", some { seenOne with
              LastRun := "2024-11-05T10:00:00Z", AllMatches := [sampleMatch 7] })]).LastRun
        = memHost.now [] :=
  Save_Load_round_trip (NewManager "state.json") memHost [] _
    { seenOne with LastRun := "old", AllMatches := [sampleMatch 7] }
    (by
      intro w w1 path data hw
      simp only [memHost, Prod.mk.injEq, and_true] at hw
      subst hw
      simp [memHost, List.lookup])
    (by
      intro s data hm
      simp only [memHost, Option.some.injEq] at hm
      subst hm
      exact ⟨s, rfl, rfl, rfl, Iff.rfl, fun _ => rfl⟩)
    rfl

/-! ## Clear, frame conditions and batching -/

theorem GoMap.get_eq_entry (m : GoMap) (k : String) : m.get k = (m.entry k).getD false := by
  cases m <;> rfl

theorem specNewIssues_congr (a b : GoMap) (C : List Issue) (h : ∀ k, a.get k = b.get k) :
    specNewIssues a C = specNewIssues b C := by
  unfold specNewIssues
  congr 1
  funext p
  rw [h]

/-- What `Load` returns after a `Save` that reported no error, on a platform where
a file reads back as written and `json.Unmarshal` inverts `json.Marshal`. -/
theorem Load_after_Save {Bytes World : Type} (m : Manager) (host : Host Bytes World)
    (w w1 : World) (S : State)
    (hfs : ∀ (w w1 : World) (path : String) (data : Bytes),
      host.writeFile w path data = (w1, true) → host.readFile w1 path = .ok data)
    (hjson : ∀ (s : State) (data : Bytes), host.jsonMarshal s = some data →
      ∃ s1, host.jsonUnmarshal data = some s1 ∧ s1.LastRun = s.LastRun ∧
        s1.AllMatches = s.AllMatches ∧ GoMap.Same s1.ProcessedIssues s.ProcessedIssues)
    (hsave : m.Save host w S = (w1, none)) :
    GoMap.Same (m.Load host w1).ProcessedIssues S.ProcessedIssues ∧
      (m.Load host w1).AllMatches = S.AllMatches ∧
      (m.Load host w1).LastRun = host.now w := by
  unfold Manager.Save at hsave
  simp only at hsave
  cases hm : host.jsonMarshal { S with LastRun := host.now w } with
  | none => simp [hm] at hsave
  | some data =>
    rw [hm] at hsave
    simp only at hsave
    cases hw : host.writeFile w m.statePath data with
    | mk w2 ok =>
      rw [hw] at hsave
      cases ok with
      | false => simp at hsave
      | true =>
        simp only [Prod.mk.injEq, and_true] at hsave
        subst hsave
        obtain ⟨s1, hparse, hlast, hmatches, hmap⟩ := hjson _ data hm
        have hread := hfs w w2 m.statePath data hw
        have hload : m.Load host w2 = s1 := by
          unfold Manager.Load
          rw [hread]
          simp only [hparse]
        rw [hload]
        exact ⟨hmap, hmatches, hlast⟩

/-- The loop of `FilterNewIssues` writes to the processed map only. -/
theorem filterLoop_frame :
    ∀ (rest newIssues : List Issue) (st : State) (r : List Issue × State),
      filterLoop rest newIssues st = some r →
      r.2.AllMatches = st.AllMatches ∧ r.2.LastRun = st.LastRun := by
  intro rest
  induction rest with
  | nil =>
    intro newIssues st r h
    simp only [filterLoop, Option.some.injEq] at h
    subst h
    exact ⟨rfl, rfl⟩
  | cons c rest ih =>
    intro newIssues st r h
    simp only [filterLoop] at h
    split at h
    · cases hset : st.ProcessedIssues.set (issueKey c) true with
      | none => simp [hset] at h
      | some m1 =>
        rw [hset] at h
        exact ih _ { st with ProcessedIssues := m1 } _ h
    · exact ih _ _ _ h

/-- The loop of `FilterNewIssues` only appends to its result slice. -/
theorem filterLoop_acc :
    ∀ (rest newIssues : List Issue) (st : State),
      filterLoop rest newIssues st
        = (filterLoop rest [] st).map (fun r => (newIssues ++ r.1, r.2)) := by
  intro rest
  induction rest with
  | nil => intro newIssues st; simp [filterLoop]
  | cons c rest ih =>
    intro newIssues st
    simp only [filterLoop]
    split
    · cases hset : st.ProcessedIssues.set (issueKey c) true with
      | none => rfl
      | some m1 =>
        simp only
        rw [ih (newIssues ++ [c]), ih ([] ++ [c]), Option.map_map]
        congr 1
        funext r
        simp
    · exact ih newIssues st

/-- Running the loop over `C1 ++ C2` is running it over `C1` and then over `C2`
from the result slice and state the first run left. -/
theorem filterLoop_append :
    ∀ (C1 C2 newIssues : List Issue) (st : State),
      filterLoop (C1 ++ C2) newIssues st
        = (filterLoop C1 newIssues st).bind (fun r => filterLoop C2 r.1 r.2) := by
  intro C1
  induction C1 with
  | nil => intro C2 newIssues st; simp [filterLoop]
  | cons c C1 ih =>
    intro C2 newIssues st
    simp only [List.cons_append, filterLoop]
    split
    · cases hset : st.ProcessedIssues.set (issueKey c) true with
      | none => rfl
      | some m1 => exact ih _ _ _
    · exact ih _ _ _

theorem FilterNewIssues_nil_map_panics (S : State) (c : Issue) (rest : List Issue)
    (hnil : S.ProcessedIssues = .nil) : FilterNewIssues S (c :: rest) = none := by
  simp [FilterNewIssues, filterLoop, hnil, GoMap.get, GoMap.set]

/-- C11 (`Clear` discards all history): on a platform where a file reads back as
written and `json.Unmarshal` inverts `json.Marshal`, whatever the world held
before, after a `Clear` that reported no error `Load` returns a state whose
processed map is allocated and empty and whose match history is empty, so a
following `FilterNewIssues` returns every first occurrence of a key in the batch.
`Clear` returns exactly what `Save` of the fresh state returns, error included. -/
theorem Clear_discards_history {Bytes World : Type} (m : Manager) (host : Host Bytes World)
    (w w1 : World)
    (hfs : ∀ (w w1 : World) (path : String) (data : Bytes),
      host.writeFile w path data = (w1, true) → host.readFile w1 path = .ok data)
    (hjson : ∀ (s : State) (data : Bytes), host.jsonMarshal s = some data →
      ∃ s1, host.jsonUnmarshal data = some s1 ∧ s1.LastRun = s.LastRun ∧
        s1.AllMatches = s.AllMatches ∧ GoMap.Same s1.ProcessedIssues s.ProcessedIssues)
    (hclear : m.Clear host w = (w1, none)) :
    GoMap.Same (m.Load host w1).ProcessedIssues GoMap.make ∧
      (∀ k, (m.Load host w1).ProcessedIssues.get k = false) ∧
      (m.Load host w1).AllMatches = [] ∧
      (∀ C, ∃ S1, FilterNewIssues (m.Load host w1) C
        = some (specNewIssues GoMap.make C, S1)) ∧
      ∀ w0, m.Clear host w0 = m.Save host w0 freshState := by
  obtain ⟨hmap, hmatches, _⟩ := Load_after_Save m host w w1 _ hfs hjson hclear
  have hget : ∀ k, (m.Load host w1).ProcessedIssues.get k = false := by
    intro k
    rw [GoMap.get_eq_entry, hmap.2 k]
    rfl
  have hinit : (m.Load host w1).ProcessedIssues ≠ .nil := by
    intro hnil
    have := hmap.1.1 hnil
    simp [GoMap.make] at this
  refine ⟨hmap, hget, hmatches, ?_, fun _ => rfl⟩
  intro C
  obtain ⟨S1, hrun, _⟩ := FilterNewIssues_allocated (m.Load host w1) C hinit
  refine ⟨S1, ?_⟩
  rw [hrun, specNewIssues_congr _ GoMap.make C (fun k => by rw [hget k]; rfl)]

/-- Witness for C11: on the in-memory host, clearing a world whose state file held
three processed keys leaves a file that loads with nothing processed and no
matches. -/
theorem Clear_discards_history_witness :
    GoMap.Same
        ((NewManager "state.json").Load memHost
          [("state.json", some { freshState with LastRun := "2024-11-05T10:00:00Z" }),
           ("state.json", some seenThree)]).ProcessedIssues GoMap.make ∧
      (∀ k, ((NewManager "state.json").Load memHost
          [("state.json", some { freshState with LastRun := "2024-11-05T10:00:00Z" }),
           ("state.json", some seenThree)]).ProcessedIssues.get k = false) ∧
      ((NewManager "state.json").Load memHost
          [("state.json", some { freshState with LastRun := "2024-11-05T10:00:00Z" }),
           ("state.json", some seenThree)]).AllMatches = [] ∧
      (∀ C, ∃ S1, FilterNewIssues ((NewManager "state.json").Load memHost
          [("state.json", some { freshState with LastRun := "2024-11-05T10:00:00Z" }),
           ("state.json", some seenThree)]) C
        = some (specNewIssues GoMap.make C, S1)) ∧
      ∀ w0, (NewManager "state.json").Clear memHost w0
        = (NewManager "state.json").Save memHost w0 freshState :=
  Clear_discards_history (NewManager "state.json") memHost
    [("state.json", some seenThree)] _
    (by
      intro w w1 path data hw
      simp only [memHost, Prod.mk.injEq, and_true] at hw
      subst hw
      simp [memHost, List.lookup])
    (by
      intro s data hm
      simp only [memHost, Option.some.injEq] at hm
      subst hm
      exact ⟨s, rfl, rfl, rfl, Iff.rfl, fun _ => rfl⟩)
    rfl

/-- The history `AddMatches` stores is always a prefix of `new ++ old`. -/
theorem AddMatches_stores_take (state : State) (newMatches : List IssueMatch) (cap : Int)
    (s1 : State) (h : AddMatches state newMatches cap = some s1) :
    ∃ n, s1 = { state with AllMatches := (newMatches ++ state.AllMatches).take n } := by
  unfold AddMatches at h
  simp only at h
  split at h
  · rename_i hgt
    by_cases hneg : cap < 0
    · rw [sliceTo_of_neg _ _ hneg] at h
      simp at h
    · rw [sliceTo_of_le _ _ (by omega) (le_of_lt hgt)] at h
      simp only [Option.some.injEq] at h
      exact ⟨cap.toNat, h.symm⟩
  · simp only [Option.some.injEq] at h
    exact ⟨(newMatches ++ state.AllMatches).length, by rw [List.take_length]; exact h.symm⟩

/-- C12 (`AddMatches` never rewrites stored matches): whenever `AddMatches` has
returned, the stored history is a prefix of the new matches followed by a prefix
of the old history, so every old match still retained is the same value in every
field, its found-at value included, and in the same order as before; old matches
are retained only behind all the new ones. `AddMatches` leaves `ProcessedIssues`
and `LastRun` as they were, and `FilterNewIssues` leaves `AllMatches` and
`LastRun` as they were. -/
theorem AddMatches_never_rewrites (state : State) (newMatches : List IssueMatch) (cap : Int)
    (s1 : State) (h : AddMatches state newMatches cap = some s1) :
    (∃ keptNew keptOld, s1.AllMatches = keptNew ++ keptOld ∧ keptNew <+: newMatches ∧
      keptOld <+: state.AllMatches ∧ (keptOld ≠ [] → keptNew = newMatches)) ∧
    s1.ProcessedIssues = state.ProcessedIssues ∧ s1.LastRun = state.LastRun ∧
    ∀ (S S1 : State) (C R : List Issue), FilterNewIssues S C = some (R, S1) →
      S1.AllMatches = S.AllMatches ∧ S1.LastRun = S.LastRun := by
  obtain ⟨n, rfl⟩ := AddMatches_stores_take state newMatches cap s1 h
  refine ⟨⟨newMatches.take n, state.AllMatches.take (n - newMatches.length), ?_,
    List.take_prefix _ _, List.take_prefix _ _, ?_⟩, rfl, rfl, ?_⟩
  · simp only
    exact List.take_append_eq_append_take
  · intro hne
    apply List.take_of_length_le
    by_contra hlt
    apply hne
    have : n - newMatches.length = 0 := by omega
    rw [this]
    rfl
  · intro S S1 C R hrun
    exact filterLoop_frame C [] S (R, S1) hrun

/-- Witness for C12: with history `[M1, M2]`, new matches `[M3, M4]` and cap 3 the
stored history is `[M3, M4, M1]`: both new matches, then the old `M1` unchanged. -/
theorem AddMatches_never_rewrites_witness :
    AddMatches { seenOne with AllMatches := [sampleMatch 1, sampleMatch 2] }
        [sampleMatch 3, sampleMatch 4] 3
      = some { seenOne with AllMatches := [sampleMatch 3, sampleMatch 4, sampleMatch 1] } ∧
    ((∃ keptNew keptOld,
        ({ seenOne with AllMatches := [sampleMatch 3, sampleMatch 4, sampleMatch 1] }
          : State).AllMatches = keptNew ++ keptOld ∧
        keptNew <+: [sampleMatch 3, sampleMatch 4] ∧
        keptOld <+: ({ seenOne with AllMatches := [sampleMatch 1, sampleMatch 2] }
          : State).AllMatches ∧
        (keptOld ≠ [] → keptNew = [sampleMatch 3, sampleMatch 4])) ∧
      ({ seenOne with AllMatches := [sampleMatch 3, sampleMatch 4, sampleMatch 1] }
          : State).ProcessedIssues
        = ({ seenOne with AllMatches := [sampleMatch 1, sampleMatch 2] }
          : State).ProcessedIssues ∧
      ({ seenOne with AllMatches := [sampleMatch 3, sampleMatch 4, sampleMatch 1] }
          : State).LastRun
        = ({ seenOne with AllMatches := [sampleMatch 1, sampleMatch 2] } : State).LastRun ∧
      ∀ (S S1 : State) (C R : List Issue), FilterNewIssues S C = some (R, S1) →
        S1.AllMatches = S.AllMatches ∧ S1.LastRun = S.LastRun) :=
  ⟨by decide, AddMatches_never_rewrites
    { seenOne with AllMatches := [sampleMatch 1, sampleMatch 2] }
    [sampleMatch 3, sampleMatch 4] 3
    { seenOne with AllMatches := [sampleMatch 3, sampleMatch 4, sampleMatch 1] } (by decide)⟩

/-- C13 (incremental batching): filtering `C1` and then `C2` from the state the
first call left gives the same outcome as one call on `C1 ++ C2`: the two results
concatenated are the result of the single call and the final states are equal, and
either way panics exactly when the other does. On a state with an allocated
processed map all three calls return. -/
theorem FilterNewIssues_batches (S : State) (C1 C2 : List Issue) :
    ((FilterNewIssues S C1).bind (fun r1 =>
        (FilterNewIssues r1.2 C2).map (fun r2 => (r1.1 ++ r2.1, r2.2)))
      = FilterNewIssues S (C1 ++ C2)) ∧
    (S.ProcessedIssues ≠ .nil → ∃ R1 S1 R2 S2,
      FilterNewIssues S C1 = some (R1, S1) ∧ FilterNewIssues S1 C2 = some (R2, S2) ∧
      FilterNewIssues S (C1 ++ C2) = some (R1 ++ R2, S2)) := by
  have heq : (FilterNewIssues S C1).bind (fun r1 =>
        (FilterNewIssues r1.2 C2).map (fun r2 => (r1.1 ++ r2.1, r2.2)))
      = FilterNewIssues S (C1 ++ C2) := by
    unfold FilterNewIssues
    rw [filterLoop_append]
    congr 1
    funext r
    rw [filterLoop_acc C2 r.1 r.2]
  refine ⟨heq, ?_⟩
  intro hinit
  obtain ⟨S1, h1, hinit1, _⟩ := FilterNewIssues_allocated S C1 hinit
  obtain ⟨S2, h2, _⟩ := FilterNewIssues_allocated S1 C2 hinit1
  refine ⟨_, S1, _, S2, h1, h2, ?_⟩
  rw [← heq, h1]
  simp only [Option.some_bind]
  rw [h2]
  rfl

/-- Witness for C13: the sample batch split after its second candidate. -/
theorem FilterNewIssues_batches_witness :
    seenOne.ProcessedIssues ≠ .nil ∧
    FilterNewIssues seenOne (sampleBatch.take 2 ++ sampleBatch.drop 2)
      = some ([mkIssue "x/y" 2 [("title", .str "first")]] ++ [mkIssue "x/y" 3 []], seenThree) ∧
    ∃ R1 S1 R2 S2,
      FilterNewIssues seenOne (sampleBatch.take 2) = some (R1, S1) ∧
      FilterNewIssues S1 (sampleBatch.drop 2) = some (R2, S2) ∧
      FilterNewIssues seenOne (sampleBatch.take 2 ++ sampleBatch.drop 2)
        = some (R1 ++ R2, S2) :=
  ⟨by decide, by decide,
    (FilterNewIssues_batches seenOne (sampleBatch.take 2) (sampleBatch.drop 2)).2 (by decide)⟩

/-! ## Profile validation -/

/-- C14 (profile validation): `validateProfile` returns an error for every profile
whose experience is below 0 or above 50, returns no error for every profile with
at least one skill and experience from 0 to 50 inclusive, and rejects every
profile with no skills whatever its experience. -/
theorem validateProfile_spec (profile : UserProfile) :
    ((profile.ExperienceYears < 0 ∨ 50 < profile.ExperienceYears) →
      ∃ msg, validateProfile profile = some msg) ∧
    ((profile.Skills ≠ [] ∧ 0 ≤ profile.ExperienceYears ∧ profile.ExperienceYears ≤ 50) →
      validateProfile profile = none) ∧
    (profile.Skills = [] → ∃ msg, validateProfile profile = some msg) := by
  unfold validateProfile
  refine ⟨?_, ?_, ?_⟩
  · intro h
    by_cases hs : profile.Skills.length = 0
    · rw [if_pos hs]
      exact ⟨_, rfl⟩
    · rw [if_neg hs, if_pos h]
      exact ⟨_, rfl⟩
  · rintro ⟨hs, h0, h50⟩
    have hlen : profile.Skills.length ≠ 0 := by
      intro h
      exact hs (List.length_eq_zero.1 h)
    rw [if_neg hlen, if_neg (by omega)]
  · intro hs
    rw [if_pos (by rw [hs]; rfl)]
    exact ⟨_, rfl⟩

/-- Witness for C14: one skill with experience 0 and with experience 50 pass;
experience 51, experience -1 and an empty skill list are rejected. -/
theorem validateProfile_spec_witness :
    validateProfile { Name := "dev", Skills := ["Go"], Interests := [], ExperienceYears := 0 }
        = none ∧
    validateProfile { Name := "dev", Skills := ["Go"], Interests := [], ExperienceYears := 50 }
        = none ∧
    validateProfile { Name := "dev", Skills := ["Go"], Interests := [], ExperienceYears := -1 }
        = some "experience years must be between 0 and 50" ∧
    (∃ msg, validateProfile
        { Name := "dev", Skills := ["Go"], Interests := [], ExperienceYears := 51 } = some msg) ∧
    (∃ msg, validateProfile
        { Name := "dev", Skills := [], Interests := [], ExperienceYears := 5 } = some msg) :=
  ⟨(validateProfile_spec
      { Name := "dev", Skills := ["Go"], Interests := [], ExperienceYears := 0 }).2.1
      ⟨by decide, by decide, by decide⟩,
    by decide, by decide,
    (validateProfile_spec
      { Name := "dev", Skills := ["Go"], Interests := [], ExperienceYears := 51 }).1
      (Or.inr (by decide)),
    (validateProfile_spec
      { Name := "dev", Skills := [], Interests := [], ExperienceYears := 5 }).2.2 rfl⟩

/-! ## The found-at value -/

/-- A closed form of `AddMatches`: a panic for a negative cap, otherwise the first
`maxMatches` entries of `new ++ old`. -/
theorem AddMatches_eq (state : State) (newMatches : List IssueMatch) (cap : Int) :
    AddMatches state newMatches cap
      = if cap < 0 then none
        else some { state with AllMatches := (newMatches ++ state.AllMatches).take cap.toNat } := by
  by_cases h : cap < 0
  · rw [if_pos h, AddMatches_negative_cap_panics state newMatches cap h]
  · rw [if_neg h, AddMatches_of_nonneg state newMatches cap (by omega)]

theorem stampFoundAt_eq_of_erase (now : String) (ms1 ms2 : List IssueMatch)
    (h : ms1.map eraseFoundAt = ms2.map eraseFoundAt) :
    stampFoundAt now ms1 = stampFoundAt now ms2 := by
  have hfac : ∀ ms : List IssueMatch, stampFoundAt now ms
      = (ms.map eraseFoundAt).map (fun m => { m with FoundAt := now }) := by
    intro ms
    simp [stampFoundAt, eraseFoundAt, List.map_map, Function.comp_def]
  rw [hfac ms1, hfac ms2, h]

/-- C15 (as stated, refuted): two single-match lists that differ only in the
found-at value handed to `AddMatches` leave different histories, so the stored
found-at value does depend on the incoming one. -/
theorem AddMatches_found_at_depends_on_input :
    [sampleMatch 1].map eraseFoundAt
        = [{ sampleMatch 1 with FoundAt := "1999-12-31 23:59" }].map eraseFoundAt ∧
      (AddMatches freshState [sampleMatch 1] 5).map (fun s => s.AllMatches)
        ≠ (AddMatches freshState [{ sampleMatch 1 with FoundAt := "1999-12-31 23:59" }] 5).map
            (fun s => s.AllMatches) := by
  decide

/-- C15 (amended): the found-at value is set by `EvaluateIssues`, whose last loop
overwrites the found-at of every parsed match with the time of the evaluation, and
`AddMatches` stores each match with the value it carries. For lists that differ
only in found-at: after the evaluator's stamp with the same time `AddMatches`
gives the same outcome; without the stamp the outcomes agree in every field other
than found-at; and whatever is stored is a prefix of `new ++ old` as handed in. -/
theorem AddMatches_found_at_passthrough (state : State) (ms1 ms2 : List IssueMatch)
    (cap : Int) (now : String) (hdiff : ms1.map eraseFoundAt = ms2.map eraseFoundAt) :
    AddMatches state (stampFoundAt now ms1) cap = AddMatches state (stampFoundAt now ms2) cap ∧
    (∀ m ∈ stampFoundAt now ms1, m.FoundAt = now) ∧
    (AddMatches state ms1 cap).map (fun s => s.AllMatches.map eraseFoundAt)
      = (AddMatches state ms2 cap).map (fun s => s.AllMatches.map eraseFoundAt) ∧
    (∀ s1, AddMatches state ms1 cap = some s1 →
      ∃ n, s1.AllMatches = (ms1 ++ state.AllMatches).take n) := by
  refine ⟨by rw [stampFoundAt_eq_of_erase now ms1 ms2 hdiff], ?_, ?_, ?_⟩
  · intro m hm
    simp only [stampFoundAt, List.mem_map] at hm
    obtain ⟨a, _, rfl⟩ := hm
    rfl
  · rw [AddMatches_eq, AddMatches_eq]
    by_cases h : cap < 0
    · simp [h]
    · simp only [if_neg h, Option.map_some', List.map_take, List.map_append, hdiff]
  · intro s1 h1
    obtain ⟨n, rfl⟩ := AddMatches_stores_take state ms1 cap s1 h1
    exact ⟨n, rfl⟩

/-- Witness for C15 (amended): the two lists of the counterexample, stamped at the
same minute, are stored alike. -/
theorem AddMatches_found_at_passthrough_witness :
    AddMatches freshState (stampFoundAt "2024-11-05 10:00" [sampleMatch 1]) 5
        = AddMatches freshState (stampFoundAt "2024-11-05 10:00"
            [{ sampleMatch 1 with FoundAt := "1999-12-31 23:59" }]) 5 ∧
    (∀ m ∈ stampFoundAt "2024-11-05 10:00" [sampleMatch 1], m.FoundAt = "2024-11-05 10:00") ∧
    (AddMatches freshState [sampleMatch 1] 5).map (fun s => s.AllMatches.map eraseFoundAt)
      = (AddMatches freshState [{ sampleMatch 1 with FoundAt := "1999-12-31 23:59" }] 5).map
          (fun s => s.AllMatches.map eraseFoundAt) ∧
    (∀ s1, AddMatches freshState [sampleMatch 1] 5 = some s1 →
      ∃ n, s1.AllMatches = ([sampleMatch 1] ++ freshState.AllMatches).take n) :=
  AddMatches_found_at_passthrough freshState [sampleMatch 1]
    [{ sampleMatch 1 with FoundAt := "1999-12-31 23:59" }] 5 "2024-11-05 10:00" (by decide)

/-! ## A loaded state with a nil map -/

/-- C19 (failing input): a state file that parses to the zero `State`, as the
documents `null` and `{}` do, is returned by `Load` with a nil processed
map, and `FilterNewIssues` on that state with the one candidate `x/y#1` does not
return: the write to the nil map panics. -/
theorem Load_zero_state_then_filter_panics :
    ((NewManager "state.json").Load memHost [("state.json", some zeroState)]).ProcessedIssues
        = .nil ∧
      FilterNewIssues ((NewManager "state.json").Load memHost [("state.json", some zeroState)])
        [mkIssue "x/y" 1 []] = none := by
  decide

/-! ## The issue source -/

theorem buildCandidate_url (issue : GitHubIssue) :
    (buildCandidate issue).member "url" = .str issue.URL := by
  simp [buildCandidate, Issue.member, List.lookup]

theorem buildCandidate_body (issue : GitHubIssue) :
    (buildCandidate issue).member "body" = .raw (truncateBody issue.Body) := by
  simp [buildCandidate, Issue.member, List.lookup]

theorem keepUnseen_append :
    ∀ (a b : List GitHubIssue) (earlier : List String),
      keepUnseen earlier (a ++ b)
        = keepUnseen earlier a ++ keepUnseen (earlier ++ a.map (fun i => i.URL)) b := by
  intro a
  induction a with
  | nil => intro b earlier; simp [keepUnseen]
  | cons d a ih =>
    intro b earlier
    rw [List.cons_append]
    simp only [keepUnseen, List.map_cons]
    split
    · rw [ih]; simp
    · rw [ih]; simp

theorem keepUnseen_eq_enumFrom (issues : List GitHubIssue) :
    ∀ (rest passed : List GitHubIssue), issues = passed ++ rest →
      keepUnseen (passed.map (fun i => i.URL)) rest
        = (rest.enumFrom passed.length).filterMap (fun p =>
            if p.2.URL ∉ (issues.take p.1).map (fun i => i.URL) then some p.2 else none) := by
  intro rest
  induction rest with
  | nil => intro passed _; simp [keepUnseen]
  | cons d rest ih =>
    intro passed hC
    have htake : issues.take passed.length = passed := by
      rw [hC]; simp
    have hnext := ih (passed ++ [d]) (by rw [hC]; simp)
    simp only [List.length_append, List.length_singleton, List.map_append, List.map_cons,
      List.map_nil] at hnext
    simp only [keepUnseen, List.enumFrom_cons, List.filterMap_cons, htake]
    by_cases hkeep : d.URL ∉ passed.map (fun i => i.URL)
    · rw [if_pos hkeep, if_pos hkeep, hnext]
    · rw [if_neg hkeep, if_neg hkeep, hnext]

theorem keepUnseen_eq_first (issues : List GitHubIssue) :
    keepUnseen [] issues = firstByURL issues := by
  have := keepUnseen_eq_enumFrom issues issues [] rfl
  simpa [firstByURL, List.enum] using this

theorem keepUnseen_mem :
    ∀ (rest : List GitHubIssue) (earlier : List String) (i : GitHubIssue),
      i ∈ keepUnseen earlier rest → i ∈ rest ∧ i.URL ∉ earlier := by
  intro rest
  induction rest with
  | nil => intro earlier i h; simp [keepUnseen] at h
  | cons d rest ih =>
    intro earlier i h
    have htail : i ∈ keepUnseen (earlier ++ [d.URL]) rest → i ∈ d :: rest ∧ i.URL ∉ earlier := by
      intro h1
      obtain ⟨a, b⟩ := ih (earlier ++ [d.URL]) i h1
      exact ⟨List.mem_cons_of_mem _ a, fun hmem => b (List.mem_append_left _ hmem)⟩
    simp only [keepUnseen] at h
    split at h
    · rename_i hkeep
      rcases List.mem_cons.1 h with h1 | h1
      · subst h1
        exact ⟨List.mem_cons_self _ _, hkeep⟩
      · exact htail h1
    · exact htail h

theorem keepUnseen_nodup :
    ∀ (rest : List GitHubIssue) (earlier : List String),
      ((keepUnseen earlier rest).map (fun i => i.URL)).Nodup := by
  intro rest
  induction rest with
  | nil => intro earlier; simp [keepUnseen]
  | cons d rest ih =>
    intro earlier
    simp only [keepUnseen]
    split
    · rw [List.map_cons, List.nodup_cons]
      refine ⟨?_, ih _⟩
      intro hmem
      obtain ⟨i, hi, hurl⟩ := List.mem_map.1 hmem
      apply (keepUnseen_mem rest (earlier ++ [d.URL]) i hi).2
      rw [hurl]
      simp
    · exact ih _

theorem keepUnseen_covers :
    ∀ (rest : List GitHubIssue) (earlier : List String) (i : GitHubIssue),
      i ∈ rest → i.URL ∉ earlier →
      i.URL ∈ (keepUnseen earlier rest).map (fun j => j.URL) := by
  intro rest
  induction rest with
  | nil => intro earlier i h; simp at h
  | cons d rest ih =>
    intro earlier i hi hnew
    simp only [keepUnseen]
    by_cases hsame : i.URL = d.URL
    · rw [if_pos (by rw [← hsame]; exact hnew), List.map_cons, hsame]
      exact List.mem_cons_self _ _
    · have hmem : i ∈ rest := by
        rcases List.mem_cons.1 hi with h1 | h1
        · exact absurd (by rw [h1]) hsame
        · exact h1
      have hrec := ih (earlier ++ [d.URL]) i hmem (by
        intro h
        rcases List.mem_append.1 h with h1 | h1
        · exact hnew h1
        · exact hsame (by simpa using h1))
      split
      · rw [List.map_cons]
        exact List.mem_cons_of_mem _ hrec
      · exact hrec

/-- The invariant of the inner loop: with `earlier` the URLs already passed, the
map marks exactly those; the loop returns, appends the candidates of the issues
with a new URL and marks the URLs it passed. -/
theorem collectIssues_spec :
    ∀ (issues : List GitHubIssue) (earlier : List String) (allIssues : List Issue)
      (seen : GoMap), seen ≠ .nil → (∀ u, seen.get u = decide (u ∈ earlier)) →
      ∃ seen1, collectIssues issues allIssues seen
          = some (allIssues ++ (keepUnseen earlier issues).map buildCandidate, seen1) ∧
        seen1 ≠ .nil ∧
        ∀ u, seen1.get u = decide (u ∈ earlier ++ issues.map (fun i => i.URL)) := by
  intro issues
  induction issues with
  | nil =>
    intro earlier allIssues seen hnil hinv
    exact ⟨seen, by simp [collectIssues, keepUnseen], hnil, by simpa using hinv⟩
  | cons d rest ih =>
    intro earlier allIssues seen hnil hinv
    by_cases hget : seen.get d.URL = true
    · have hold : ¬ d.URL ∉ earlier := by
        have := hinv d.URL
        rw [hget] at this
        simpa using this.symm
      obtain ⟨seen1, hrun, h1, h2⟩ := ih (earlier ++ [d.URL]) allIssues seen hnil (by
        intro u
        rw [hinv u]
        by_cases hu : u = d.URL
        · rw [hu]
          have hmem : d.URL ∈ earlier := by simpa using hold
          simp [hmem]
        · simp [hu])
      refine ⟨seen1, ?_, h1, ?_⟩
      · simp only [collectIssues, hget, keepUnseen, if_neg hold]
        simpa using hrun
      · simpa using h2
    · have hfalse : seen.get d.URL = false := by simpa using hget
      have hnew : d.URL ∉ earlier := by
        have := hinv d.URL
        rw [hfalse] at this
        simpa using this.symm
      obtain ⟨m1, hset⟩ := GoMap.set_isSome seen d.URL true hnil
      obtain ⟨seen1, hrun, h1, h2⟩ := ih (earlier ++ [d.URL]) (allIssues ++ [buildCandidate d])
        m1 (GoMap.set_ne_nil _ _ _ _ hset) (by
          intro u
          rw [GoMap.get_set _ _ _ _ hset u, hinv u]
          by_cases hu : u = d.URL
          · simp [hu]
          · simp [hu])
      refine ⟨seen1, ?_, h1, ?_⟩
      · simp only [collectIssues, hfalse, keepUnseen, if_pos hnew, hset]
        simpa using hrun
      · simpa using h2

theorem collectQueries_spec :
    ∀ (results : List (List GitHubIssue)) (earlier : List String) (allIssues : List Issue)
      (seen : GoMap), seen ≠ .nil → (∀ u, seen.get u = decide (u ∈ earlier)) →
      ∃ seen1, collectQueries results allIssues seen
          = some (allIssues ++ (keepUnseen earlier results.flatten).map buildCandidate, seen1) := by
  intro results
  induction results with
  | nil =>
    intro earlier allIssues seen _ _
    exact ⟨seen, by simp [collectQueries, keepUnseen]⟩
  | cons issues rest ih =>
    intro earlier allIssues seen hnil hinv
    obtain ⟨seen1, hrun, h1, h2⟩ := collectIssues_spec issues earlier allIssues seen hnil hinv
    obtain ⟨seen2, hrun2⟩ := ih (earlier ++ issues.map (fun i => i.URL))
      (allIssues ++ (keepUnseen earlier issues).map buildCandidate) seen1 h1 h2
    refine ⟨seen2, ?_⟩
    simp only [collectQueries, hrun, hrun2, List.flatten_cons, keepUnseen_append, List.map_append,
      List.append_assoc]

/-- Two queries whose results share the URLs `u1` and `u2`: the result lists `u1`,
`u2`, `u3`, each once, in order of first occurrence. -/
theorem FetchRelevantIssues_sample :
    (FetchRelevantIssues [[sampleHit 1 "u1", sampleHit 2 "u2"],
        [sampleHit 2 "u2", sampleHit 3 "u3", sampleHit 9 "u1"]]).map
          (fun out => out.map (fun c => (c.member "number", c.member "url")))
      = some [(.int 1, .str "u1"), (.int 2, .str "u2"), (.int 3, .str "u3")] := by
  decide

/-- C16 (the result is deduplicated by URL): for every sequence of per-query search
results `FetchRelevantIssues` returns, and its result holds the candidates built
from the issues that are the first of their URL across the queries, in that
order: the `url` values of the result are pairwise distinct, a URL occurs in the
result exactly when it occurs in the search results, and the `url` values are
listed in order of first occurrence. -/
theorem FetchRelevantIssues_dedup_by_url (results : List (List GitHubIssue)) :
    ∃ out, FetchRelevantIssues results = some out ∧
      out = (firstByURL results.flatten).map buildCandidate ∧
      (out.map (fun c => c.member "url")).Nodup ∧
      (∀ u, GoAny.str u ∈ out.map (fun c => c.member "url")
        ↔ u ∈ results.flatten.map (fun i => i.URL)) ∧
      out.map (fun c => c.member "url")
        = (firstByURL results.flatten).map (fun i => GoAny.str i.URL) := by
  obtain ⟨seen1, hrun⟩ := collectQueries_spec results [] [] GoMap.make
    (by simp [GoMap.make]) (by intro u; simp [GoMap.make, GoMap.get])
  have hurls : ((firstByURL results.flatten).map buildCandidate).map (fun c => c.member "url")
      = ((firstByURL results.flatten).map (fun i => i.URL)).map GoAny.str := by
    simp only [List.map_map]
    apply List.map_congr_left
    intro i _
    exact buildCandidate_url i
  refine ⟨_, ?_, rfl, ?_, ?_, ?_⟩
  · simp only [FetchRelevantIssues, hrun, Option.map_some', List.nil_append, keepUnseen_eq_first]
  · rw [hurls]
    apply List.Nodup.map
    · intro a b h
      exact GoAny.str.inj h
    · rw [← keepUnseen_eq_first]
      exact keepUnseen_nodup _ _
  · intro u
    rw [hurls, ← keepUnseen_eq_first]
    constructor
    · intro h
      obtain ⟨v, hv, hvu⟩ := List.mem_map.1 h
      have huv : v = u := GoAny.str.inj hvu
      subst huv
      obtain ⟨i, hi, rfl⟩ := List.mem_map.1 hv
      exact List.mem_map_of_mem _ (keepUnseen_mem _ _ i hi).1
    · intro h
      obtain ⟨i, hi, rfl⟩ := List.mem_map.1 h
      exact List.mem_map_of_mem _ (keepUnseen_covers _ [] i hi (by simp))
  · rw [hurls, List.map_map]
    rfl

theorem utf8Bytes_length_ascii :
    ∀ (cs : List Char), (∀ c ∈ cs, c.val ≤ 0x7f) →
      (cs.flatMap String.utf8EncodeChar).length = cs.length := by
  intro cs
  induction cs with
  | nil => intro _; rfl
  | cons c cs ih =>
    intro h
    have hc : c.val ≤ 0x7f := h c (List.mem_cons_self _ _)
    have htail := ih (fun d hd => h d (List.mem_cons_of_mem _ hd))
    rw [List.flatMap_cons, List.length_append, htail, String.length_utf8EncodeChar]
    have h1 : c.utf8Size = 1 := by
      unfold Char.utf8Size
      exact if_pos hc
    rw [h1, List.length_cons]
    omega

set_option maxRecDepth 100000 in
/-- C17 (as stated, refuted): a body of 251 characters, each two bytes long in
UTF-8, is at most 500 characters long and yet is not stored unchanged: the
candidate holds its first 500 bytes, which are 250 characters, and the marker. -/
theorem truncateBody_counts_bytes :
    accentedBody.length ≤ 500 ∧
      (buildCandidate { sampleHit 1 "u1" with Body := accentedBody }).member "body"
        ≠ .raw (utf8Bytes accentedBody) ∧
      (buildCandidate { sampleHit 1 "u1" with Body := accentedBody }).member "body"
        = .raw (utf8Bytes (String.mk (List.replicate 250 'é')) ++ utf8Bytes "... [truncated]") := by
  decide

/-- C17 (amended): the body text of a candidate is the body unchanged when the
UTF-8 encoding of the body is at most 500 bytes long, and otherwise the first 500
bytes of that encoding followed by the marker `... [truncated]`; so the stored
body never holds more than 500 bytes of the original text. For a body of ASCII
characters bytes and characters are the same count. -/
theorem truncateBody_spec (issue : GitHubIssue) :
    (buildCandidate issue).member "body" = .raw (truncateBody issue.Body) ∧
    ((utf8Bytes issue.Body).length ≤ 500 → truncateBody issue.Body = utf8Bytes issue.Body) ∧
    (500 < (utf8Bytes issue.Body).length →
      truncateBody issue.Body
        = (utf8Bytes issue.Body).take 500 ++ utf8Bytes "... [truncated]") ∧
    (∃ kept tail, truncateBody issue.Body = kept ++ tail ∧ kept <+: utf8Bytes issue.Body ∧
      kept.length ≤ 500 ∧ (tail = [] ∨ tail = utf8Bytes "... [truncated]")) ∧
    ((∀ c ∈ issue.Body.data, c.val ≤ 0x7f) →
      (utf8Bytes issue.Body).length = issue.Body.length) := by
  refine ⟨buildCandidate_body issue, ?_, ?_, ?_, ?_⟩
  · intro h
    unfold truncateBody
    rw [if_neg (by omega)]
  · intro h
    unfold truncateBody
    rw [if_pos h]
    rfl
  · unfold truncateBody
    by_cases h : (utf8Bytes issue.Body).length > 500
    · rw [if_pos h]
      refine ⟨_, _, rfl, List.take_prefix _ _, ?_, Or.inr rfl⟩
      rw [List.length_take]
      omega
    · rw [if_neg h]
      exact ⟨_, [], (List.append_nil _).symm, List.prefix_refl _, by omega, Or.inl rfl⟩
  · intro h
    exact utf8Bytes_length_ascii _ h

/-- Witness for C17 (amended): the one-byte body `b` is stored unchanged, and its
byte count is its character count. -/
theorem truncateBody_spec_witness :
    truncateBody (sampleHit 1 "u1").Body = utf8Bytes (sampleHit 1 "u1").Body ∧
      (utf8Bytes (sampleHit 1 "u1").Body).length = (sampleHit 1 "u1").Body.length ∧
      truncateBody (sampleHit 1 "u1").Body = [98] :=
  ⟨(truncateBody_spec (sampleHit 1 "u1")).2.1 (by decide),
    (truncateBody_spec (sampleHit 1 "u1")).2.2.2.2 (by decide), by decide⟩

/-! ## extractJSON -/

theorem lastIndex_sound (pat : List Char) :
    ∀ (t : List Char) (e : Nat), lastIndex pat t = some e →
      e ≤ t.length ∧ pat.isPrefixOf (t.drop e) = true := by
  intro t
  induction t with
  | nil =>
    intro e h
    simp only [lastIndex] at h
    split at h
    · rename_i hp
      simp only [Option.some.injEq] at h
      subst h
      exact ⟨le_refl _, hp⟩
    · simp at h
  | cons c cs ih =>
    intro e h
    simp only [lastIndex] at h
    cases hrec : lastIndex pat cs with
    | some i =>
      rw [hrec] at h
      simp only [Option.some.injEq] at h
      subst h
      obtain ⟨h1, h2⟩ := ih i hrec
      exact ⟨by simp only [List.length_cons]; omega, by simpa using h2⟩
    | none =>
      rw [hrec] at h
      simp only at h
      split at h
      · rename_i hp
        simp only [Option.some.injEq] at h
        subst h
        exact ⟨Nat.zero_le _, hp⟩
      · simp at h

theorem isPrefixOf_false_of_short (pat t : List Char) (h : t.length < pat.length) :
    pat.isPrefixOf t = false := by
  cases hp : pat.isPrefixOf t with
  | false => rfl
  | true =>
    have := (List.isPrefixOf_iff_prefix.1 hp).length_le
    omega

theorem lastIndex_short (pat : List Char) :
    ∀ (t : List Char), t.length < pat.length → lastIndex pat t = none := by
  intro t
  induction t with
  | nil =>
    intro h
    simp [lastIndex, isPrefixOf_false_of_short pat [] h]
  | cons c cs ih =>
    intro h
    have hcs : cs.length < pat.length := by
      simp only [List.length_cons] at h
      omega
    simp [lastIndex, ih hcs, isPrefixOf_false_of_short pat (c :: cs) h]

theorem lastIndex_append_self (pat : List Char) (hne : pat ≠ []) :
    ∀ (front : List Char), lastIndex pat (front ++ pat) = some front.length := by
  intro front
  induction front with
  | nil =>
    cases pat with
    | nil => exact absurd rfl hne
    | cons p ps =>
      have hshort : lastIndex (p :: ps) ps = none :=
        lastIndex_short (p :: ps) ps (by simp)
      have hself : (p :: ps).isPrefixOf (p :: ps) = true :=
        List.isPrefixOf_iff_prefix.2 (List.prefix_refl _)
      simp [lastIndex, hshort, hself]
  | cons c front ih =>
    simp [lastIndex, ih]

theorem index_single (c : Char) (post : List Char) :
    ∀ (pre : List Char), c ∉ pre → index [c] (pre ++ c :: post) = some pre.length := by
  intro pre
  induction pre with
  | nil => intro _; simp [index, List.isPrefixOf]
  | cons d pre ih =>
    intro h
    have hd : c ≠ d := fun e => h (by rw [e]; exact List.mem_cons_self _ _)
    have hrest : c ∉ pre := fun e => h (List.mem_cons_of_mem _ e)
    simp [index, List.isPrefixOf, hd, ih hrest]

theorem trimSpace_append_newline (body : List Char) :
    trimSpace (body ++ ['\n']) = trimSpace body := by
  unfold trimSpace
  rw [List.rdropWhile_concat_pos _ _ _ (by decide)]

theorem fence_eq : fence = [Char.ofNat 96, Char.ofNat 96, Char.ofNat 96] := by
  decide

theorem trimSpace_fenced (middle : List Char) :
    trimSpace (fence ++ middle ++ fence) = fence ++ middle ++ fence := by
  unfold trimSpace
  have h1 : fence ++ middle ++ fence
      = (fence ++ middle ++ [Char.ofNat 96, Char.ofNat 96]) ++ [Char.ofNat 96] := by
    simp [fence_eq]
  have h2 : (fence ++ middle ++ [Char.ofNat 96, Char.ofNat 96]) ++ [Char.ofNat 96]
      = Char.ofNat 96 :: ([Char.ofNat 96, Char.ofNat 96] ++ middle
          ++ [Char.ofNat 96, Char.ofNat 96] ++ [Char.ofNat 96]) := by
    simp [fence_eq]
  rw [h1, List.rdropWhile_concat_neg _ _ _ (by decide), h2,
    List.dropWhile_cons_of_neg (by decide)]

theorem extractJSON_returns (text : List Char) : ∃ r, extractJSON text = some r := by
  unfold extractJSON
  simp only
  split
  · cases hs : index ['\n'] (trimSpace text) with
    | none => exact ⟨_, rfl⟩
    | some startIdx =>
      cases he : lastIndex fence (trimSpace text) with
      | none => exact ⟨_, rfl⟩
      | some endIdx =>
        simp only
        split
        · exact ⟨_, rfl⟩
        · rename_i hlt
          have hle := (lastIndex_sound fence _ _ he).1
          unfold sliceFromTo
          rw [if_pos ⟨by omega, hle⟩]
          exact ⟨_, rfl⟩
  · exact ⟨_, rfl⟩

theorem extractJSON_fenced (tag body : List Char) (hnl : '\n' ∉ tag) :
    extractJSON (fence ++ tag ++ ['\n'] ++ body ++ ['\n'] ++ fence) = some (trimSpace body) := by
  have hT1 : fence ++ tag ++ ['\n'] ++ body ++ ['\n'] ++ fence
      = fence ++ (tag ++ ['\n'] ++ body ++ ['\n']) ++ fence := by
    simp only [List.append_assoc]
  have hT2 : fence ++ tag ++ ['\n'] ++ body ++ ['\n'] ++ fence
      = (fence ++ tag) ++ '\n' :: (body ++ ['\n'] ++ fence) := by
    simp
  have hT3 : fence ++ tag ++ ['\n'] ++ body ++ ['\n'] ++ fence
      = ((fence ++ tag ++ ['\n']) ++ (body ++ ['\n'])) ++ fence := by
    simp only [List.append_assoc]
  have htrim : trimSpace (fence ++ tag ++ ['\n'] ++ body ++ ['\n'] ++ fence)
      = fence ++ tag ++ ['\n'] ++ body ++ ['\n'] ++ fence := by
    rw [hT1]; exact trimSpace_fenced _
  have hpre : fence.isPrefixOf (fence ++ tag ++ ['\n'] ++ body ++ ['\n'] ++ fence) = true := by
    rw [List.isPrefixOf_iff_prefix]
    exact ⟨tag ++ ['\n'] ++ body ++ ['\n'] ++ fence, by simp only [List.append_assoc]⟩
  have hidx : index ['\n'] (fence ++ tag ++ ['\n'] ++ body ++ ['\n'] ++ fence)
      = some (fence ++ tag).length := by
    rw [hT2]
    apply index_single
    intro hmem
    rcases List.mem_append.1 hmem with h | h
    · revert h; decide
    · exact hnl h
  have hlast : lastIndex fence (fence ++ tag ++ ['\n'] ++ body ++ ['\n'] ++ fence)
      = some ((fence ++ tag ++ ['\n']) ++ (body ++ ['\n'])).length := by
    rw [hT3]
    exact lastIndex_append_self fence (by decide) _
  have hslice : sliceFromTo (fence ++ tag ++ ['\n'] ++ body ++ ['\n'] ++ fence)
      ((fence ++ tag).length + 1) ((fence ++ tag ++ ['\n']) ++ (body ++ ['\n'])).length
      = some (body ++ ['\n']) := by
    unfold sliceFromTo
    rw [if_pos ⟨by simp only [List.length_append, List.length_singleton]; omega,
      by simp only [List.length_append, List.length_singleton]; omega⟩]
    rw [hT3, List.take_left' rfl, List.drop_left' (by simp; omega)]
  unfold extractJSON
  simp only [htrim, hpre, if_true, hidx, hlast]
  rw [if_neg (by simp only [List.length_append, List.length_singleton]; omega), hslice]
  simp only [Option.map_some', trimSpace_append_newline]

/-- C18 (`extractJSON` strips a code fence and never slices out of range): for
every text it returns; when the trimmed text does not start with the fence it
returns the trimmed text; for every tag without a newline and every body the text
made of the fence, the tag, a newline, the body, a newline and the fence gives the
body trimmed; and a text that starts with the fence but has no newline, or has no
fence starting after its first newline, is returned trimmed and otherwise
unchanged. -/
theorem extractJSON_spec :
    (∀ text, ∃ r, extractJSON text = some r) ∧
    (∀ text, fence.isPrefixOf (trimSpace text) = false →
      extractJSON text = some (trimSpace text)) ∧
    (∀ tag body, '\n' ∉ tag →
      extractJSON (fence ++ tag ++ ['\n'] ++ body ++ ['\n'] ++ fence) = some (trimSpace body)) ∧
    (∀ text, fence.isPrefixOf (trimSpace text) = true →
      (index ['\n'] (trimSpace text) = none ∨
        ∃ s, index ['\n'] (trimSpace text) = some s ∧
          ∀ e, s < e → fence.isPrefixOf ((trimSpace text).drop e) = false) →
      extractJSON text = some (trimSpace text)) := by
  refine ⟨extractJSON_returns, ?_, extractJSON_fenced, ?_⟩
  · intro text h
    unfold extractJSON
    simp only [h]
    rfl
  · intro text hpre h
    unfold extractJSON
    simp only [hpre, if_true]
    rcases h with h | ⟨s, hs, hlater⟩
    · rw [h]
    · rw [hs]
      cases he : lastIndex fence (trimSpace text) with
      | none => rfl
      | some e =>
        simp only
        rw [if_pos]
        by_contra hlt
        have := hlater e (by omega)
        rw [(lastIndex_sound fence _ _ he).2] at this
        exact absurd this (by decide)

/-- Witness for C18: a response wrapped in a `json` code block gives its payload;
a response with an opening fence and no closing one, and a response with no
fence, come back trimmed. -/
theorem extractJSON_spec_witness :
    extractJSON (fence ++ "json".data ++ ['\n'] ++ " [1, 2] ".data ++ ['\n'] ++ fence)
        = some (trimSpace " [1, 2] ".data) ∧
      extractJSON "  ```json\n[1, 2]\n```\n".data = some "[1, 2]".data ∧
      extractJSON " ```json\n[1, 2] ".data = some "```json\n[1, 2]".data ∧
      extractJSON " [1, 2]\n".data = some (trimSpace " [1, 2]\n".data) :=
  ⟨extractJSON_spec.2.2.1 "json".data " [1, 2] ".data (by decide), by decide, by decide,
    extractJSON_spec.2.1 " [1, 2]\n".data (by decide)⟩

end IssueFinder
